import Mathlib

/-!
Shallow embedding of the graph-IR core of `src/ir/ir.h`
(`my_ai_training::ir`): Value metadata, Node input-edit operations with
their Use-list bookkeeping, and the circular doubly-linked node list.
Machine pointers are modelled as natural-number ids; `nullptr` is `none`;
a fatal `ONNX_ASSERT` failure is modelled as an operation returning `none`.
-/

/-- A `Use` record from `ir.h`: `user` is the consuming node, `offset` the
index into the user's input list where this value appears. -/
structure Use where
  user : Nat
  offset : Nat
deriving DecidableEq, Repr

/-- A `Dimension` from `ir.h`: either unknown, a symbolic parameter, or a
known integer. -/
structure Dimension where
  is_unknown : Bool
  is_int : Bool
  dim : Int
  param : String
deriving DecidableEq, Repr

/-- The metadata-carrying state of a single `Value` from `ir.h`: producer
(`node_`, `offset_`), unique id, stage, consumer list, optional name,
element type and optional shape. -/
structure IrValue where
  node_ : Nat
  offset_ : Nat
  unique_ : Nat
  stage_ : Nat
  uses_in_current_graph_ : List Use
  has_unique_name_ : Bool
  unique_name_ : String
  elem_type_ : Int
  has_sizes_ : Bool
  sizes_ : List Dimension
deriving DecidableEq, Repr

/-- `toVarName` from `ir.h`: the deterministic fallback name, prefix
`"_v_"` followed by the decimal rendering of the id. -/
def toVarName (i : Nat) : String :=
  "_v_" ++ Nat.repr i

/-- `Value::setElemType`. -/
def IrValue.setElemType (v : IrValue) (t : Int) : IrValue :=
  { v with elem_type_ := t }

/-- `Value::setSizes`: marks the shape present and stores the dimensions. -/
def IrValue.setSizes (v : IrValue) (s : List Dimension) : IrValue :=
  { v with has_sizes_ := true, sizes_ := s }

/-- `Value::wipeSizes`: marks the shape absent and clears the dimensions. -/
def IrValue.wipeSizes (v : IrValue) : IrValue :=
  { v with has_sizes_ := false, sizes_ := [] }

/-- `Value::uniqueName`: the explicit name when set, otherwise the
id-derived fallback. -/
def IrValue.uniqueName (v : IrValue) : String :=
  if v.has_unique_name_ then v.unique_name_ else toVarName v.unique_

/-- Modelled from the spec: `Value::setUniqueName` is declared in
`src/ir/ir.h` but its body is not in the provided sources. Per the spec it
sets the explicit name (the nested-subgraph capture renaming has no
counterpart in this local model). -/
def IrValue.setUniqueName (v : IrValue) (name : String) : IrValue :=
  { v with has_unique_name_ := true, unique_name_ := name }

/-- `Value::copyMetadata`: `setElemType(from->elemType())`,
`setSizes(from->sizes())`, then `setUniqueName(from->uniqueName())` only
when `from` has an explicit name. -/
def IrValue.copyMetadata (v : IrValue) (f : IrValue) : IrValue :=
  let v1 := v.setElemType f.elem_type_
  let v2 := v1.setSizes f.sizes_
  if f.has_unique_name_ then v2.setUniqueName f.uniqueName else v2

/-- A node viewed through its immutable kind tag, for kind-based
downcasting (`Node::cast` / `Node::expect`); kinds are interned symbols,
modelled as numbers. -/
structure IrNode where
  kind : Nat
deriving DecidableEq, Repr

/-- `Node::cast<T>()`: the typed view when the kind tag matches `T::Kind`,
otherwise `none` (the `nullptr` result). -/
def IrNode.cast (TKind : Nat) (n : IrNode) : Option IrNode :=
  if TKind = n.kind then some n else none

/-- `Node::expect<T>()`: the same kind comparison, but a mismatch is the
fatal `ONNX_ASSERTM`, modelled as an `Except.error` carrying the
diagnostic message. -/
def IrNode.expect (TKind : Nat) (n : IrNode) : Except String IrNode :=
  if TKind = n.kind then Except.ok n
  else Except.error ("expected a " ++ Nat.repr TKind ++ " but found a " ++ Nat.repr n.kind)

/-- The use-tracking state of a graph: for each node id its ordered input
list (entries are value ids, `none` standing for the transient `nullptr`
that `dropInput` writes), for each node id its ordered output-value list,
and for each value id its `uses_in_current_graph_` list. -/
structure GraphState where
  nodeInputs : List (List (Option Nat))
  nodeOutputs : List (List Nat)
  valueUses : List (List Use)
deriving DecidableEq, Repr

/-- Consumer list of value `v` (empty for an id outside the graph). -/
def usesOf (g : GraphState) (v : Nat) : List Use :=
  (g.valueUses[v]?).getD []

/-- Input list of node `n` (empty for an id outside the graph). -/
def inputsOf (g : GraphState) (n : Nat) : List (Option Nat) :=
  (g.nodeInputs[n]?).getD []

/-- The value id found at input slot `i` of node `n`; `none` when the node
or slot does not exist or the slot holds the transient `nullptr`. -/
def inputAt (g : GraphState) (n i : Nat) : Option Nat :=
  ((inputsOf g n)[i]?).getD none

/-- `Node::addInput`: registers `Use(this, inputs_.size())` on `v`'s
consumer list, then appends `v` to the input list. The same-graph
`ONNX_ASSERT` is modelled by requiring both ids to live in this state. -/
def addInput (g : GraphState) (n v : Nat) : Option GraphState :=
  match g.nodeInputs[n]?, g.valueUses[v]? with
  | some ins, some us =>
    some { g with
      valueUses := g.valueUses.set v (us ++ [⟨n, ins.length⟩]),
      nodeInputs := g.nodeInputs.set n (ins ++ [some v]) }
  | _, _ => none

/-- `Node::dropInput`: finds the `Use(this, i)` record on input `i`'s
consumer list (`findUseForInput`, asserting it exists), erases it, writes
`nullptr` into slot `i`, and returns the displaced value. -/
def dropInput (g : GraphState) (n i : Nat) : Option (GraphState × Nat) :=
  match g.nodeInputs[n]? with
  | none => none
  | some ins =>
    match ins[i]? with
    | none => none
    | some none => none
    | some (some v) =>
      match g.valueUses[v]? with
      | none => none
      | some us =>
        if (⟨n, i⟩ : Use) ∈ us then
          some ({ g with
            valueUses := g.valueUses.set v (us.erase ⟨n, i⟩),
            nodeInputs := g.nodeInputs.set n (ins.set i none) }, v)
        else none

/-- `Node::replaceInput`: `dropInput(i)`, install `newValue` at slot `i`,
register a fresh `Use(this, i)` on its consumer list, return the old
value. -/
def replaceInput (g : GraphState) (n i w : Nat) : Option (GraphState × Nat) :=
  match dropInput g n i with
  | none => none
  | some (g1, old) =>
    match g1.nodeInputs[n]?, g1.valueUses[w]? with
    | some ins1, some usw =>
      some ({ g1 with
        nodeInputs := g1.nodeInputs.set n (ins1.set i (some w)),
        valueUses := g1.valueUses.set w (usw ++ [⟨n, i⟩]) }, old)
    | _, _ => none

/-- Loop body of `Node::replaceInputWith`: walk the snapshot of the input
list left to right, replacing every slot that held `from`. (Each position
is read before the only write that can touch it, so the live C++ iteration
coincides with iterating the snapshot.) -/
def riwLoop : GraphState → Nat → Nat → Nat → List (Option Nat) → Nat → Option GraphState
  | g, _, _, _, [], _ => some g
  | g, n, f, t, x :: xs, i =>
    if x = some f then
      match replaceInput g n i t with
      | none => none
      | some (g1, _) => riwLoop g1 n f t xs (i + 1)
    else riwLoop g n f t xs (i + 1)

/-- `Node::replaceInputWith`: replace all occurrences of `from` among the
inputs with `to`; both must belong to this graph. -/
def replaceInputWith (g : GraphState) (n f t : Nat) : Option GraphState :=
  match g.valueUses[f]?, g.valueUses[t]? with
  | some _, some _ =>
    match g.nodeInputs[n]? with
    | none => none
    | some ins => riwLoop g n f t ins 0
  | _, _ => none

/-- Decrement of the first matching use record, modelling
`findUseForInput(j)` followed by `it->offset--` in `removeInput`. -/
def decFirstUse : List Use → Use → List Use
  | [], _ => []
  | x :: xs, u => if x = u then ⟨u.user, u.offset - 1⟩ :: xs else x :: decFirstUse xs u

/-- One iteration of `removeInput`'s renumbering loop at slot `j`:
look up input `j`'s value, find `Use(this, j)` on its consumer list
(asserting it exists) and decrement its offset. -/
def decUseOffsetAt (g : GraphState) (n j : Nat) : Option GraphState :=
  match inputAt g n j with
  | none => none
  | some v =>
    match g.valueUses[v]? with
    | none => none
    | some us =>
      if (⟨n, j⟩ : Use) ∈ us then
        some { g with valueUses := g.valueUses.set v (decFirstUse us ⟨n, j⟩) }
      else none

/-- The renumbering loop of `Node::removeInput`: `k` iterations starting
at slot `j`. -/
def shiftUsesFrom : GraphState → Nat → Nat → Nat → Option GraphState
  | g, _, _, 0 => some g
  | g, n, j, k + 1 =>
    match decUseOffsetAt g n j with
    | none => none
    | some g1 => shiftUsesFrom g1 n (j + 1) k

/-- `Node::removeInput`: `dropInput(i)`, shift the use offsets of every
later slot down by one, then erase slot `i` from the input list. -/
def removeInput (g : GraphState) (n i : Nat) : Option GraphState :=
  match dropInput g n i with
  | none => none
  | some (g1, _) =>
    match g1.nodeInputs[n]? with
    | none => none
    | some ins1 =>
      match shiftUsesFrom g1 n (i + 1) (ins1.length - (i + 1)) with
      | none => none
      | some g2 => some { g2 with nodeInputs := g2.nodeInputs.set n (ins1.eraseIdx i) }

/-- The loop of `Node::removeAllInputs`: `dropInput(i)` for `k` successive
slots starting at `i`. -/
def dropAllLoop : GraphState → Nat → Nat → Nat → Option GraphState
  | g, _, _, 0 => some g
  | g, n, i, k + 1 =>
    match dropInput g n i with
    | none => none
    | some (g1, _) => dropAllLoop g1 n (i + 1) k

/-- `Node::removeAllInputs`: drop every input's use registration, then
clear the input list. -/
def removeAllInputs (g : GraphState) (n : Nat) : Option GraphState :=
  match g.nodeInputs[n]? with
  | none => none
  | some ins =>
    match dropAllLoop g n 0 ins.length with
    | none => none
    | some g1 => some { g1 with nodeInputs := g1.nodeInputs.set n [] }

/-- Write value `w` into input slot `i` of node `n` (the raw
`u.user->inputs_[u.offset] = newValue` store). -/
def setInputSlot (g : GraphState) (n i w : Nat) : Option GraphState :=
  match g.nodeInputs[n]? with
  | none => none
  | some ins =>
    if i < ins.length then
      some { g with nodeInputs := g.nodeInputs.set n (ins.set i (some w)) }
    else none

/-- Rewrite every slot recorded in the given use list to point at `w`. -/
def rewriteUsesLoop : GraphState → List Use → Nat → Option GraphState
  | g, [], _ => some g
  | g, u :: us, w =>
    match setInputSlot g u.user u.offset w with
    | none => none
    | some g1 => rewriteUsesLoop g1 us w

/-- Modelled from the spec: `Value::replaceAllUsesWith` is declared in
`src/ir/ir.h` but its body is not in the provided sources. Per the spec,
for every Use (consumer, slot) currently on this value the consumer's
input at that slot is rewritten to `newValue` and the Use record moves to
`newValue`'s consumer list in original order; afterwards this value has
zero consumers. -/
def valueReplaceAllUsesWith (g : GraphState) (v w : Nat) : Option GraphState :=
  match g.valueUses[v]?, g.valueUses[w]? with
  | some usv, some usw =>
    match rewriteUsesLoop g usv w with
    | none => none
    | some g1 =>
      some { g1 with valueUses := (g1.valueUses.set w (usw ++ usv)).set v [] }
  | _, _ => none

/-- Pairwise loop of `Node::replaceAllUsesWith`. -/
def nodeRAUWLoop : GraphState → List (Nat × Nat) → Option GraphState
  | g, [] => some g
  | g, (a, b) :: ps =>
    match valueReplaceAllUsesWith g a b with
    | none => none
    | some g1 => nodeRAUWLoop g1 ps

/-- `Node::replaceAllUsesWith(n)`: asserts equal output arity, then for
each output position delegates to `Value::replaceAllUsesWith`, pairing
output `i` with `n`'s output `i`. -/
def nodeReplaceAllUsesWith (g : GraphState) (n m : Nat) : Option GraphState :=
  match g.nodeOutputs[n]?, g.nodeOutputs[m]? with
  | some os, some osm =>
    if os.length = osm.length then nodeRAUWLoop g (os.zip osm) else none
  | _, _ => none

/-- Offset renumbering applied by `removeInput`'s loop, as a pure
function: a use of node `n` whose offset lies in `[lo, hi)` moves down one
slot. -/
def decInRange (n lo hi : Nat) (u : Use) : Use :=
  if u.user = n ∧ lo ≤ u.offset ∧ u.offset < hi then ⟨u.user, u.offset - 1⟩ else u

/-- The `next_in_graph` pair of one node: `nxt`/`prv` are the two link
pointers, `none` standing for `nullptr`. -/
structure NodeLinks where
  nxt : Option Nat
  prv : Option Nat
deriving DecidableEq, Repr

/-- The linked-list state of all nodes of a graph, indexed by node id. -/
structure ListState where
  nodes : List NodeLinks
deriving DecidableEq, Repr

/-- The `next()` pointer of node `i` (`none` for null or an unknown id). -/
def nextOf (s : ListState) (i : Nat) : Option Nat :=
  (s.nodes[i]?).bind (fun l => l.nxt)

/-- The `prev()` pointer of node `i` (`none` for null or an unknown id). -/
def prevOf (s : ListState) (i : Nat) : Option Nat :=
  (s.nodes[i]?).bind (fun l => l.prv)

/-- Assigning `next()` of node `i`. -/
def setNxt (s : ListState) (i : Nat) (v : Option Nat) : ListState :=
  match s.nodes[i]? with
  | some l => ⟨s.nodes.set i { l with nxt := v }⟩
  | none => s

/-- Assigning `prev()` of node `i`. -/
def setPrv (s : ListState) (i : Nat) (v : Option Nat) : ListState :=
  match s.nodes[i]? with
  | some l => ⟨s.nodes.set i { l with prv := v }⟩
  | none => s

/-- `Node::inGraphList`: asserts `next() != nullptr || prev() == nullptr`
(fatal otherwise, modelled as `none`), then reports whether `next()` is
non-null. -/
def inGraphList (s : ListState) (n : Nat) : Option Bool :=
  match s.nodes[n]? with
  | none => none
  | some l => if l.nxt = none ∧ l.prv ≠ none then none else some l.nxt.isSome

/-- `Node::insertAfter(n)`: asserts `this` detached and `n` attached, then
splices: `next = n->next(); n->next() = this; this->prev() = n;
this->next() = next; next->prev() = this`. -/
def insertAfter (s : ListState) (m n : Nat) : Option ListState :=
  match inGraphList s m, inGraphList s n with
  | some false, some true =>
    match nextOf s n with
    | some nx =>
      some (setPrv (setNxt (setPrv (setNxt s n (some m)) m (some n)) m (some nx)) nx (some m))
    | none => none
  | _, _ => none

/-- `Node::insertBefore(n)`: asserts `n` attached, then
`insertAfter(n->prev())`. -/
def insertBefore (s : ListState) (m n : Nat) : Option ListState :=
  match inGraphList s n with
  | some true =>
    match prevOf s n with
    | some pv => insertAfter s m pv
    | none => none
  | _ => none

/-- `Node::removeFromList`: asserts attachment, then unlinks:
`prev->next() = next; next->prev() = prev; this->next() = nullptr;
this->prev() = nullptr`. -/
def removeFromList (s : ListState) (m : Nat) : Option ListState :=
  match inGraphList s m with
  | some true =>
    match nextOf s m, prevOf s m with
    | some nx, some pv =>
      some (setPrv (setNxt (setPrv (setNxt s pv (some nx)) nx (some pv)) m none) m none)
    | _, _ => none
  | _ => none

/-- `Node::moveAfter(n)`: `removeFromList()` then `insertAfter(n)`. -/
def moveAfter (s : ListState) (m n : Nat) : Option ListState :=
  match removeFromList s m with
  | none => none
  | some s1 => insertAfter s1 m n

/-- `Node::moveBefore(n)`: `removeFromList()` then `insertBefore(n)`. -/
def moveBefore (s : ListState) (m n : Nat) : Option ListState :=
  match removeFromList s m with
  | none => none
  | some s1 => insertBefore s1 m n

/-- The link-state invariant: every node is fully detached (both links
null) or fully attached, with `next`'s `prev` and `prev`'s `next` pointing
back at it. -/
def LinkInvariant (s : ListState) : Prop :=
  ∀ x : Nat,
    ((nextOf s x).isSome ↔ (prevOf s x).isSome) ∧
    (∀ a, nextOf s x = some a → prevOf s a = some x) ∧
    (∀ b, prevOf s x = some b → nextOf s b = some x)

/-- Executable check for `LinkInvariant` on a concrete state. -/
def linkInvB (s : ListState) : Bool :=
  (List.range s.nodes.length).all fun x =>
    (match nextOf s x, prevOf s x with
     | some a, some _ => prevOf s a == some x
     | none, none => true
     | _, _ => false) &&
    (match prevOf s x with
     | some b => nextOf s b == some x
     | none => true)

/-- The mirror invariant of the spec: for every value id `v` and every
conceivable use record `u`, `u` occurs on `v`'s consumer list exactly once
when node `u.user`'s input at slot `u.offset` is `v`, and not at all
otherwise. Hence each consumer list equals, without duplicates, the set of
(node, slot) pairs currently pointing at the value. -/
def ConsumerMirror (g : GraphState) : Prop :=
  ∀ v : Nat, ∀ u : Use,
    (usesOf g v).count u = if inputAt g u.user u.offset = some v then 1 else 0

/-- Executable check for `ConsumerMirror` on a concrete state. -/
def consumerMirrorB (g : GraphState) : Bool :=
  ((List.range g.valueUses.length).all fun v =>
    (usesOf g v).all fun u =>
      decide (inputAt g u.user u.offset = some v) && ((usesOf g v).count u == 1)) &&
  ((List.range g.nodeInputs.length).all fun n =>
    (List.range (inputsOf g n).length).all fun i =>
      match inputAt g n i with
      | some v => decide (v < g.valueUses.length) && decide ((⟨n, i⟩ : Use) ∈ usesOf g v)
      | none => true)

/-- Concrete named value used by witnesses. -/
def vNamedW : IrValue :=
  { node_ := 0, offset_ := 0, unique_ := 3, stage_ := 0,
    uses_in_current_graph_ := [], has_unique_name_ := true,
    unique_name_ := "x", elem_type_ := 1, has_sizes_ := false, sizes_ := [] }

/-- Concrete unnamed value used by witnesses. -/
def vAnonW : IrValue :=
  { vNamedW with has_unique_name_ := false, unique_ := 7 }

/-- Concrete one-node graph used by witnesses: node 0 consumes value 0,
value 1 is unused. -/
def gW0 : GraphState := ⟨[[some 0]], [[]], [[⟨0, 0⟩], []]⟩

/-- `gW0` after `addInput` of value 1. -/
def gW1 : GraphState := ⟨[[some 0, some 1]], [[]], [[⟨0, 0⟩], [⟨0, 1⟩]]⟩

/-- `gW0` after replacing input 0 with value 1. -/
def gW2 : GraphState := ⟨[[some 1]], [[]], [[], [⟨0, 0⟩]]⟩

/-- `gW0` after removing its only input. -/
def gW3 : GraphState := ⟨[[]], [[]], [[], []]⟩

/-- Concrete graph for the replace-all-uses witnesses: value 0 has three
consumers — node 0 slot 0, node 1 slots 0 and 1 — and value 2 has none;
node 0 outputs value 0, node 1 outputs value 2, node 2 has no outputs. -/
def gR0 : GraphState :=
  ⟨[[some 0], [some 0, some 0]], [[0], [2], []],
   [[⟨0, 0⟩, ⟨1, 0⟩, ⟨1, 1⟩], [], []]⟩

/-- `gR0` after `value 0 . replaceAllUsesWith(value 2)`. -/
def gR1 : GraphState :=
  ⟨[[some 2], [some 2, some 2]], [[0], [2], []],
   [[], [], [⟨0, 0⟩, ⟨1, 0⟩, ⟨1, 1⟩]]⟩

/-- Concrete two-node list for witnesses: node 0 is a self-looped
sentinel, node 1 is detached. -/
def sW0 : ListState := ⟨[⟨some 0, some 0⟩, ⟨none, none⟩]⟩

/-- `sW0` after node 1 is spliced in after node 0. -/
def sW1 : ListState := ⟨[⟨some 1, some 1⟩, ⟨some 0, some 0⟩]⟩

/-- A corrupt one-node state: `prev` non-null but `next` null. -/
def sW2 : ListState := ⟨[⟨none, some 0⟩]⟩

/-! ## Theorems -/

/-- C7: `uniqueName()` always returns a string (it is a total function):
the explicit name exactly when `has_unique_name()` holds, and otherwise
the deterministic fallback `"_v_"` followed by the decimal id. -/
theorem uniqueName_spec (v : IrValue) :
    (v.has_unique_name_ = true → v.uniqueName = v.unique_name_) ∧
    (v.has_unique_name_ = false → v.uniqueName = "_v_" ++ Nat.repr v.unique_) := by
  constructor <;> intro h <;> simp [IrValue.uniqueName, toVarName, h]

theorem uniqueName_spec_witness :
    vNamedW.uniqueName = "x" ∧ vAnonW.uniqueName = "_v_" ++ Nat.repr 7 :=
  ⟨(uniqueName_spec vNamedW).1 rfl, (uniqueName_spec vAnonW).2 rfl⟩

/-- C8: `cast<T>()` yields the typed view exactly when the immutable kind
tag equals `T::Kind` and the non-fatal `nullptr` otherwise, while
`expect<T>()` makes the same comparison but fails fatally (an assertion
message) on mismatch instead of returning an absence value. -/
theorem cast_expect_spec (TKind : Nat) (n : IrNode) :
    (n.cast TKind = some n ↔ TKind = n.kind) ∧
    (n.cast TKind = none ↔ TKind ≠ n.kind) ∧
    (n.expect TKind = Except.ok n ↔ TKind = n.kind) ∧
    (TKind ≠ n.kind → ∃ msg, n.expect TKind = Except.error msg) := by
  refine ⟨?_, ?_, ?_, ?_⟩
  · unfold IrNode.cast; split <;> simp_all
  · unfold IrNode.cast; split <;> simp_all
  · unfold IrNode.expect; split <;> simp_all
  · intro h
    refine ⟨"expected a " ++ Nat.repr TKind ++ " but found a " ++ Nat.repr n.kind, ?_⟩
    unfold IrNode.expect
    simp [h]

theorem cast_expect_spec_witness :
    (IrNode.cast 5 ⟨5⟩ = some ⟨5⟩) ∧ (∃ msg, IrNode.expect 4 ⟨5⟩ = Except.error msg) :=
  ⟨(cast_expect_spec 5 ⟨5⟩).1.mpr rfl, (cast_expect_spec 4 ⟨5⟩).2.2.2 (by decide)⟩

/-- C10: `copyMetadata` unconditionally calls `setSizes(from->sizes())`,
which always marks the shape present, so even when `from` has no shape the
destination ends with `has_sizes()` true (and `from`'s dimension vector,
which is empty-or-stale data, copied verbatim). -/
theorem copyMetadata_sets_sizes_present (v f : IrValue) (_h : f.has_sizes_ = false) :
    (v.copyMetadata f).has_sizes_ = true ∧ (v.copyMetadata f).sizes_ = f.sizes_ := by
  unfold IrValue.copyMetadata IrValue.setSizes IrValue.setElemType IrValue.setUniqueName
  split <;> simp

theorem copyMetadata_sets_sizes_present_witness :
    (vAnonW.copyMetadata vAnonW).has_sizes_ = true ∧
      (vAnonW.copyMetadata vAnonW).sizes_ = vAnonW.sizes_ :=
  copyMetadata_sets_sizes_present vAnonW vAnonW rfl

/-- C6 counterexample: `copyMetadata` does not copy the shape's presence
state. With a source value whose shape is absent, the destination
nevertheless reports a present shape afterwards. -/
theorem copyMetadata_presence_cex :
    (vNamedW.copyMetadata vAnonW).has_sizes_ ≠ vAnonW.has_sizes_ := by
  decide

/-- C6 (amended): `copyMetadata(from)` copies `from`'s element type and
dimension sequence and unconditionally marks the shape present (so the
presence state agrees with `from` only when `from` has a shape); it copies
the name exactly when `from` has an explicit one; and it leaves the unique
id, the producer (owning node and output slot) and the consumer list
untouched. -/
theorem copyMetadata_spec (v f : IrValue) :
    (v.copyMetadata f).elem_type_ = f.elem_type_ ∧
    (v.copyMetadata f).sizes_ = f.sizes_ ∧
    (v.copyMetadata f).has_sizes_ = true ∧
    (f.has_unique_name_ = true →
      (v.copyMetadata f).has_unique_name_ = true ∧
      (v.copyMetadata f).unique_name_ = f.unique_name_) ∧
    (f.has_unique_name_ = false →
      (v.copyMetadata f).has_unique_name_ = v.has_unique_name_ ∧
      (v.copyMetadata f).unique_name_ = v.unique_name_) ∧
    (v.copyMetadata f).unique_ = v.unique_ ∧
    (v.copyMetadata f).node_ = v.node_ ∧
    (v.copyMetadata f).offset_ = v.offset_ ∧
    (v.copyMetadata f).uses_in_current_graph_ = v.uses_in_current_graph_ := by
  unfold IrValue.copyMetadata IrValue.setSizes IrValue.setElemType
    IrValue.setUniqueName IrValue.uniqueName
  split <;> simp_all

theorem copyMetadata_spec_witness :
    (vAnonW.copyMetadata vNamedW).has_unique_name_ = true ∧
      (vNamedW.copyMetadata vAnonW).unique_name_ = vNamedW.unique_name_ :=
  ⟨((copyMetadata_spec vAnonW vNamedW).2.2.2.1 rfl).1,
   ((copyMetadata_spec vNamedW vAnonW).2.2.2.2.1 rfl).2⟩

/-- Reading at `m` after writing list entry `n` (default-valued read). -/
theorem getD_set_of_lt {α : Type} (l : List α) (n : Nat) (x d : α) (m : Nat)
    (h : n < l.length) :
    ((l.set n x)[m]?).getD d = if m = n then x else (l[m]?).getD d := by
  rw [List.getElem?_set]
  rcases eq_or_ne n m with rfl | hnm
  · simp [h]
  · simp [hnm, Ne.symm hnm]

/-- Writing back the value already stored is the identity. -/
theorem set_getElem?_self {α : Type} (l : List α) (i : Nat) (a : α)
    (h : l[i]? = some a) : l.set i a = l := by
  apply List.ext_getElem?
  intro j
  rw [List.getElem?_set]
  rcases eq_or_ne i j with rfl | hij
  · have hlt : i < l.length := by
      by_contra hge
      push_neg at hge
      rw [List.getElem?_eq_none hge] at h
      cases h
    simp [hlt, h.symm]
  · simp [hij]

/-- `decFirstUse` leaves counts of unrelated records unchanged. -/
theorem count_decFirstUse_of_ne (l : List Use) (u0 u : Use) (h1 : u ≠ u0)
    (h2 : u ≠ ⟨u0.user, u0.offset - 1⟩) :
    (decFirstUse l u0).count u = l.count u := by
  induction l with
  | nil => rfl
  | cons x xs ih =>
    unfold decFirstUse
    by_cases hx : x = u0
    · subst hx
      simp [List.count_cons, Ne.symm h2, Ne.symm h1]
    · simp [hx, List.count_cons, ih]

/-- A conditional rewrite whose trigger is absent from the list is the
identity map. -/
theorem map_ite_id_of_not_mem (l : List Use) (u0 y : Use) (h : u0 ∉ l) :
    l.map (fun x => if x = u0 then y else x) = l := by
  induction l with
  | nil => rfl
  | cons x xs ih =>
    simp only [List.mem_cons, not_or] at h
    have hx : x ≠ u0 := fun hh => h.1 hh.symm
    simp [hx, ih h.2]

/-- When the record occurs exactly once, decrementing its first occurrence
is the same as rewriting every occurrence. -/
theorem decFirstUse_eq_map (l : List Use) (u0 : Use) (h : l.count u0 = 1) :
    decFirstUse l u0 =
      l.map (fun x => if x = u0 then (⟨u0.user, u0.offset - 1⟩ : Use) else x) := by
  induction l with
  | nil => rfl
  | cons x xs ih =>
    by_cases hx : x = u0
    · subst hx
      have hxs : x ∉ xs := by
        simp [List.count_cons] at h
        exact List.count_eq_zero.mp h
      unfold decFirstUse
      simp [map_ite_id_of_not_mem xs x _ hxs]
    · have hxs : xs.count u0 = 1 := by
        simpa [List.count_cons, Ne.symm hx] using h
      unfold decFirstUse
      simp [hx, ih hxs]

/-- Head contribution of `decInRange` to a count of a node-`n` record. -/
theorem decInRange_head_contrib (x : Use) (n lo hi o : Nat) (hlo : 1 ≤ lo) :
    (if decInRange n lo hi x = ⟨n, o⟩ then 1 else 0) =
      ((if lo ≤ o ∧ o < hi then 0 else if x = ⟨n, o⟩ then 1 else 0) +
       (if lo ≤ o + 1 ∧ o + 1 < hi then (if x = ⟨n, o + 1⟩ then 1 else 0) else 0)) := by
  rcases x with ⟨xu, xo⟩
  unfold decInRange
  split_ifs <;> simp only [Use.mk.injEq, not_and] at * <;> omega

/-- Counts of node-`n` records after the renumbering map. -/
theorem count_map_decInRange (l : List Use) (n lo hi o : Nat) (hlo : 1 ≤ lo) :
    (l.map (decInRange n lo hi)).count ⟨n, o⟩ =
      (if lo ≤ o ∧ o < hi then 0 else l.count ⟨n, o⟩) +
      (if lo ≤ o + 1 ∧ o + 1 < hi then l.count ⟨n, o + 1⟩ else 0) := by
  induction l with
  | nil => simp
  | cons x xs ih =>
    simp only [List.map_cons, List.count_cons, ih, beq_iff_eq]
    have hh := decInRange_head_contrib x n lo hi o hlo
    split_ifs at hh ⊢ <;> omega

/-- Counts of records of other nodes are untouched by the renumbering
map. -/
theorem count_map_decInRange_other (l : List Use) (n lo hi : Nat) (u : Use)
    (h : u.user ≠ n) :
    (l.map (decInRange n lo hi)).count u = l.count u := by
  induction l with
  | nil => rfl
  | cons x xs ih =>
    simp only [List.map_cons, List.count_cons, ih, beq_iff_eq]
    congr 1
    have hx : decInRange n lo hi x = u ↔ x = u := by
      unfold decInRange
      split_ifs with hc
      · constructor
        · intro he
          exfalso
          apply h
          rw [← he]
          exact hc.1
        · intro he
          exfalso
          apply h
          rw [← he]
          exact hc.1
      · exact Iff.rfl
    simp only [hx]

/-- Successful indexing implies the index is in range. -/
theorem lt_of_getElem?_some {α : Type} (l : List α) (i : Nat) (a : α)
    (h : l[i]? = some a) : i < l.length := by
  by_contra hge
  push_neg at hge
  rw [List.getElem?_eq_none hge] at h
  cases h

/-- `addInput` preserves the consumer-mirror invariant. -/
theorem addInput_mirror (g : GraphState) (n v : Nat) (g' : GraphState)
    (h : addInput g n v = some g') (hm : ConsumerMirror g) : ConsumerMirror g' := by
  cases hni : g.nodeInputs[n]? with
  | none => simp [addInput, hni] at h
  | some ins =>
  cases hvu : g.valueUses[v]? with
  | none => simp [addInput, hni, hvu] at h
  | some us =>
  simp only [addInput, hni, hvu, Option.some.injEq] at h
  subst h
  have hnlt : n < g.nodeInputs.length := lt_of_getElem?_some _ _ _ hni
  have hvlt : v < g.valueUses.length := lt_of_getElem?_some _ _ _ hvu
  have husv : usesOf g v = us := by simp [usesOf, hvu]
  have hUses : ∀ v', usesOf
      { g with valueUses := g.valueUses.set v (us ++ [⟨n, ins.length⟩]),
               nodeInputs := g.nodeInputs.set n (ins ++ [some v]) } v' =
      if v' = v then us ++ [⟨n, ins.length⟩] else usesOf g v' := by
    intro v'
    show ((g.valueUses.set v (us ++ [⟨n, ins.length⟩]))[v']?).getD [] = _
    rw [getD_set_of_lt _ _ _ _ _ hvlt]
    rfl
  have hInp : ∀ m i, inputAt
      { g with valueUses := g.valueUses.set v (us ++ [⟨n, ins.length⟩]),
               nodeInputs := g.nodeInputs.set n (ins ++ [some v]) } m i =
      if m = n then (((ins ++ [some v])[i]?).getD none) else inputAt g m i := by
    intro m i
    show ((((g.nodeInputs.set n (ins ++ [some v]))[m]?).getD [])[i]?).getD none = _
    rw [getD_set_of_lt _ _ _ _ _ hnlt]
    by_cases hmn : m = n <;> simp [hmn, inputAt, inputsOf]
  have hInpG : ∀ i, inputAt g n i = ((ins[i]?).getD none) := by
    intro i
    simp [inputAt, inputsOf, hni]
  have h0 : us.count (⟨n, ins.length⟩ : Use) = 0 := by
    have hc := hm v ⟨n, ins.length⟩
    rw [husv] at hc
    rw [hc, hInpG]
    rw [List.getElem?_eq_none (le_refl ins.length)]
    simp
  intro v' u
  rw [hUses v']
  rcases u with ⟨uu, uo⟩
  rw [hInp uu uo]
  have hkey : ¬(uu = n ∧ uo = ins.length) →
      (if uu = n then ((ins ++ [some v])[uo]?).getD none else inputAt g uu uo) =
        inputAt g uu uo := by
    intro hne
    by_cases huu : uu = n
    · subst huu
      rw [if_pos rfl, hInpG]
      rcases Nat.lt_or_ge uo ins.length with hlt | hge
      · rw [List.getElem?_append]
        simp [hlt]
      · have ho : uo ≠ ins.length := fun hh => hne ⟨rfl, hh⟩
        have h1 : (ins ++ [some v])[uo]? = none := by
          apply List.getElem?_eq_none
          simp only [List.length_append, List.length_cons, List.length_nil]
          omega
        have h2 : ins[uo]? = none := List.getElem?_eq_none hge
        rw [h1, h2]
    · rw [if_neg huu]
  by_cases hkeyc : uu = n ∧ uo = ins.length
  · obtain ⟨rfl, rfl⟩ := hkeyc
    rw [if_pos rfl, List.getElem?_concat_length]
    simp only [Option.getD_some]
    by_cases hv' : v' = v
    · subst hv'
      rw [if_pos rfl, if_pos rfl]
      simp [List.count_append, List.count_cons, h0]
    · rw [if_neg hv']
      have hrhs : ¬((some v : Option Nat) = some v') := by
        intro hc
        exact hv' ((Option.some.injEq v v') ▸ hc).symm
      rw [if_neg hrhs]
      have hc := hm v' (⟨uu, ins.length⟩ : Use)
      rw [hc, hInpG]
      rw [List.getElem?_eq_none (le_refl ins.length)]
      simp
  · rw [hkey hkeyc]
    have hune : (⟨uu, uo⟩ : Use) ≠ ⟨n, ins.length⟩ := by
      rw [Ne, Use.mk.injEq]
      exact hkeyc
    by_cases hv' : v' = v
    · subst hv'
      rw [if_pos rfl]
      have hcnt : (us ++ [(⟨n, ins.length⟩ : Use)]).count ⟨uu, uo⟩ = us.count ⟨uu, uo⟩ := by
        simp [List.count_append, List.count_cons, Ne.symm hune]
      rw [hcnt, ← husv]
      exact hm v' ⟨uu, uo⟩
    · rw [if_neg hv']
      exact hm v' ⟨uu, uo⟩

/-- Destructuring a successful `dropInput`. -/
theorem dropInput_some_elim (g : GraphState) (n i : Nat) (g1 : GraphState) (vi : Nat)
    (h : dropInput g n i = some (g1, vi)) :
    ∃ ins us, g.nodeInputs[n]? = some ins ∧ ins[i]? = some (some vi) ∧
      g.valueUses[vi]? = some us ∧ (⟨n, i⟩ : Use) ∈ us ∧
      g1 = GraphState.mk (g.nodeInputs.set n (ins.set i none)) g.nodeOutputs
        (g.valueUses.set vi (us.erase ⟨n, i⟩)) := by
  cases hni : g.nodeInputs[n]? with
  | none => simp [dropInput, hni] at h
  | some ins =>
  cases hii : ins[i]? with
  | none => simp [dropInput, hni, hii] at h
  | some o =>
  cases o with
  | none => simp [dropInput, hni, hii] at h
  | some v =>
  cases hvu : g.valueUses[v]? with
  | none => simp [dropInput, hni, hii, hvu] at h
  | some us =>
  by_cases hmem : (⟨n, i⟩ : Use) ∈ us
  · simp only [dropInput, hni, hii, hvu, if_pos hmem, Option.some.injEq, Prod.mk.injEq] at h
    obtain ⟨hg, hv⟩ := h
    subst hv
    refine ⟨ins, us, ?_, ?_, ?_, hmem, hg.symm⟩
    · simp [hni]
    · exact hii
    · simp [hvu]

  · simp [dropInput, hni, hii, hvu, hmem] at h

/-- Pointwise description of the state after a successful `dropInput`. -/
theorem dropInput_descr (g : GraphState) (n i : Nat) (g1 : GraphState) (vi : Nat)
    (h : dropInput g n i = some (g1, vi)) :
    inputAt g n i = some vi ∧
    (∀ v', usesOf g1 v' = if v' = vi then (usesOf g vi).erase ⟨n, i⟩ else usesOf g v') ∧
    (∀ m j, inputAt g1 m j = if m = n ∧ j = i then none else inputAt g m j) ∧
    g1.valueUses.length = g.valueUses.length ∧
    g1.nodeOutputs = g.nodeOutputs ∧
    (∃ ins, g.nodeInputs[n]? = some ins ∧ ins[i]? = some (some vi) ∧
      g1.nodeInputs = g.nodeInputs.set n (ins.set i none)) := by
  obtain ⟨ins, us, hni, hii, hvu, hmem, hg⟩ := dropInput_some_elim g n i g1 vi h
  subst hg
  have hnlt : n < g.nodeInputs.length := lt_of_getElem?_some _ _ _ hni
  have hvlt : vi < g.valueUses.length := lt_of_getElem?_some _ _ _ hvu
  have hilt : i < ins.length := lt_of_getElem?_some _ _ _ hii
  have husv : usesOf g vi = us := by simp [usesOf, hvu]
  refine ⟨?_, ?_, ?_, by simp, by simp, ins, hni, hii, by simp⟩
  · simp [inputAt, inputsOf, hni, hii]
  · intro v'
    show ((g.valueUses.set vi (us.erase ⟨n, i⟩))[v']?).getD [] = _
    rw [getD_set_of_lt _ _ _ _ _ hvlt]
    rw [husv]
    rfl
  · intro m j
    show ((((g.nodeInputs.set n (ins.set i none))[m]?).getD [])[j]?).getD none = _
    rw [getD_set_of_lt _ _ _ _ _ hnlt]
    by_cases hmn : m = n
    · subst hmn
      rw [if_pos rfl]
      rw [List.getElem?_set]
      by_cases hji : i = j
      · subst hji
        simp [hilt]
      · have hji2 : ¬(j = i) := fun hh => hji hh.symm
        simp [hji, hji2, inputAt, inputsOf, hni]
    · have : ¬(m = n ∧ j = i) := fun hc => hmn hc.1
      simp [hmn, this, inputAt, inputsOf]

/-- `dropInput` preserves the consumer-mirror invariant (the transient
null slot reads back as an absent input). -/
theorem dropInput_mirror (g : GraphState) (n i : Nat) (g1 : GraphState) (vi : Nat)
    (h : dropInput g n i = some (g1, vi)) (hm : ConsumerMirror g) : ConsumerMirror g1 := by
  obtain ⟨hin, hUses, hInp, _, _, _⟩ := dropInput_descr g n i g1 vi h
  intro v' u
  rcases u with ⟨uu, uo⟩
  rw [hUses v', hInp uu uo]
  by_cases hkeyc : uu = n ∧ uo = i
  · obtain ⟨rfl, rfl⟩ := hkeyc
    rw [if_pos (show uu = uu ∧ uo = uo from ⟨rfl, rfl⟩)]
    have hnone : ¬((none : Option Nat) = some v') := by simp
    rw [if_neg hnone]
    by_cases hv' : v' = vi
    · subst hv'
      rw [if_pos rfl, List.count_erase_self]
      rw [hm v' ⟨uu, uo⟩, hin]
      simp
    · rw [if_neg hv', hm v' ⟨uu, uo⟩, hin]
      have hvv : ¬vi = v' := fun hc => hv' hc.symm
      have hsome : ¬((some vi : Option Nat) = some v') := by simp [hvv]
      rw [if_neg hsome]
  · have hune : (⟨uu, uo⟩ : Use) ≠ ⟨n, i⟩ := by
      rw [Ne, Use.mk.injEq]
      exact hkeyc
    rw [if_neg hkeyc]
    by_cases hv' : v' = vi
    · subst hv'
      rw [if_pos rfl, List.count_erase_of_ne hune]
      exact hm v' ⟨uu, uo⟩
    · rw [if_neg hv']
      exact hm v' ⟨uu, uo⟩

/-- `replaceInput` preserves the consumer-mirror invariant. -/
theorem replaceInput_mirror (g : GraphState) (n i w : Nat) (g2 : GraphState) (old : Nat)
    (h : replaceInput g n i w = some (g2, old)) (hm : ConsumerMirror g) : ConsumerMirror g2 := by
  cases hdrop : dropInput g n i with
  | none => simp [replaceInput, hdrop] at h
  | some pr =>
  rcases pr with ⟨g1, o⟩
  cases hni1 : g1.nodeInputs[n]? with
  | none => simp [replaceInput, hdrop, hni1] at h
  | some ins1 =>
  cases hvw : g1.valueUses[w]? with
  | none => simp [replaceInput, hdrop, hni1, hvw] at h
  | some usw =>
  simp only [replaceInput, hdrop, hni1, hvw, Option.some.injEq, Prod.mk.injEq] at h
  obtain ⟨hg, _⟩ := h
  have hm1 : ConsumerMirror g1 := dropInput_mirror g n i g1 o hdrop hm
  obtain ⟨_, _, hInp1, _, _, ins, hni, hii, hni1'⟩ := dropInput_descr g n i g1 o hdrop
  have hins1 : ins1 = ins.set i none := by
    rw [hni1'] at hni1
    have hnlt : n < g.nodeInputs.length := lt_of_getElem?_some _ _ _ hni
    rw [List.getElem?_set] at hni1
    simp [hnlt] at hni1
    exact hni1.symm
  have hilt : i < ins1.length := by
    rw [hins1, List.length_set]
    exact lt_of_getElem?_some _ _ _ hii
  have hnlt1 : n < g1.nodeInputs.length := lt_of_getElem?_some _ _ _ hni1
  have hwlt : w < g1.valueUses.length := lt_of_getElem?_some _ _ _ hvw
  have husw : usesOf g1 w = usw := by simp [usesOf, hvw]
  have hnonei : inputAt g1 n i = none := by
    rw [hInp1 n i]
    simp
  subst hg
  have hUses : ∀ v', usesOf
      { g1 with nodeInputs := g1.nodeInputs.set n (ins1.set i (some w)),
                valueUses := g1.valueUses.set w (usw ++ [⟨n, i⟩]) } v' =
      if v' = w then usw ++ [⟨n, i⟩] else usesOf g1 v' := by
    intro v'
    show ((g1.valueUses.set w (usw ++ [⟨n, i⟩]))[v']?).getD [] = _
    rw [getD_set_of_lt _ _ _ _ _ hwlt]
    rfl
  have hInp : ∀ m j, inputAt
      { g1 with nodeInputs := g1.nodeInputs.set n (ins1.set i (some w)),
                valueUses := g1.valueUses.set w (usw ++ [⟨n, i⟩]) } m j =
      if m = n ∧ j = i then some w else inputAt g1 m j := by
    intro m j
    show ((((g1.nodeInputs.set n (ins1.set i (some w)))[m]?).getD [])[j]?).getD none = _
    rw [getD_set_of_lt _ _ _ _ _ hnlt1]
    by_cases hmn : m = n
    · subst hmn
      rw [if_pos rfl, List.getElem?_set]
      by_cases hji : i = j
      · subst hji
        simp [hilt]
      · have hji2 : ¬(j = i) := fun hh => hji hh.symm
        simp [hji, hji2, inputAt, inputsOf, hni1]
    · have hc : ¬(m = n ∧ j = i) := fun hc => hmn hc.1
      simp [hmn, hc, inputAt, inputsOf]
  have h0 : usw.count (⟨n, i⟩ : Use) = 0 := by
    have hc := hm1 w ⟨n, i⟩
    rw [husw] at hc
    rw [hc, hnonei]
    simp
  intro v' u
  rcases u with ⟨uu, uo⟩
  rw [hUses v', hInp uu uo]
  by_cases hkeyc : uu = n ∧ uo = i
  · obtain ⟨rfl, rfl⟩ := hkeyc
    rw [if_pos (show uu = uu ∧ uo = uo from ⟨rfl, rfl⟩)]
    by_cases hv' : v' = w
    · subst hv'
      rw [if_pos rfl, if_pos rfl]
      simp [List.count_append, List.count_cons, h0]
    · rw [if_neg hv']
      have hvv : ¬((some w : Option Nat) = some v') := by
        simp
        exact fun hc => hv' hc.symm
      rw [if_neg hvv]
      have hc := hm1 v' (⟨uu, uo⟩ : Use)
      rw [hc, hnonei]
      simp
  · have hune : (⟨uu, uo⟩ : Use) ≠ ⟨n, i⟩ := by
      rw [Ne, Use.mk.injEq]
      exact hkeyc
    rw [if_neg hkeyc]
    by_cases hv' : v' = w
    · subst hv'
      rw [if_pos rfl]
      have hcnt : (usw ++ [(⟨n, i⟩ : Use)]).count ⟨uu, uo⟩ = usw.count ⟨uu, uo⟩ := by
        simp [List.count_append, List.count_cons, Ne.symm hune]
      rw [hcnt, ← husw]
      exact hm1 v' ⟨uu, uo⟩
    · rw [if_neg hv']
      exact hm1 v' ⟨uu, uo⟩

/-- The loop of `replaceInputWith` preserves the consumer-mirror
invariant. -/
theorem riwLoop_mirror (xs : List (Option Nat)) : ∀ (g : GraphState) (n f t i : Nat)
    (g' : GraphState), riwLoop g n f t xs i = some g' → ConsumerMirror g →
    ConsumerMirror g' := by
  induction xs with
  | nil =>
    intro g n f t i g' h hm
    simp only [riwLoop, Option.some.injEq] at h
    subst h
    exact hm
  | cons x xs ih =>
    intro g n f t i g' h hm
    by_cases hx : x = some f
    · rw [riwLoop, if_pos hx] at h
      cases hrep : replaceInput g n i t with
      | none => rw [hrep] at h; cases h
      | some pr =>
        rcases pr with ⟨g1, o⟩
        rw [hrep] at h
        exact ih g1 n f t (i + 1) g' h (replaceInput_mirror g n i t g1 o hrep hm)
    · rw [riwLoop, if_neg hx] at h
      exact ih g n f t (i + 1) g' h hm

/-- `replaceInputWith` preserves the consumer-mirror invariant. -/
theorem replaceInputWith_mirror (g : GraphState) (n f t : Nat) (g' : GraphState)
    (h : replaceInputWith g n f t = some g') (hm : ConsumerMirror g) :
    ConsumerMirror g' := by
  cases hf : g.valueUses[f]? with
  | none => simp [replaceInputWith, hf] at h
  | some a =>
  cases ht : g.valueUses[t]? with
  | none => simp [replaceInputWith, hf, ht] at h
  | some b =>
  cases hni : g.nodeInputs[n]? with
  | none => simp [replaceInputWith, hf, ht, hni] at h
  | some ins =>
  rw [replaceInputWith] at h
  rw [hf, ht, hni] at h
  exact riwLoop_mirror ins g n f t 0 g' h hm

/-- Description of the state after `removeAllInputs`'s drop loop: the
invariant still holds, all slots in the processed window read as absent,
and the bookkeeping lengths are unchanged. -/
theorem dropAllLoop_descr (k : Nat) : ∀ (g : GraphState) (n i : Nat) (g' : GraphState),
    dropAllLoop g n i k = some g' → ConsumerMirror g →
    ConsumerMirror g' ∧
    (∀ m j, inputAt g' m j =
      if m = n ∧ i ≤ j ∧ j < i + k then none else inputAt g m j) ∧
    g'.nodeInputs.length = g.nodeInputs.length ∧
    g'.valueUses.length = g.valueUses.length := by
  induction k with
  | zero =>
    intro g n i g' h hm
    simp only [dropAllLoop, Option.some.injEq] at h
    subst h
    refine ⟨hm, ?_, rfl, rfl⟩
    intro m j
    have hc : ¬(m = n ∧ i ≤ j ∧ j < i + 0) := by
      rintro ⟨_, h2, h3⟩
      omega
    rw [if_neg hc]
  | succ k ih =>
    intro g n i g' h hm
    cases hdrop : dropInput g n i with
    | none => simp [dropAllLoop, hdrop] at h
    | some pr =>
    rcases pr with ⟨g1, vi⟩
    simp only [dropAllLoop, hdrop] at h
    have hm1 : ConsumerMirror g1 := dropInput_mirror g n i g1 vi hdrop hm
    obtain ⟨hcm, hinp, hlen1, hlen2⟩ := ih g1 n (i + 1) g' h hm1
    obtain ⟨_, _, hInpD, hvlen, _, ins, hni, hii, hniEq⟩ := dropInput_descr g n i g1 vi hdrop
    refine ⟨hcm, ?_, ?_, ?_⟩
    · intro m j
      rw [hinp m j, hInpD m j]
      by_cases hmn : m = n
      · subst hmn
        simp only [eq_self_iff_true, true_and]
        split_ifs <;> first | rfl | (exfalso; omega)
      · have h1 : ¬(m = n ∧ i + 1 ≤ j ∧ j < i + 1 + k) := fun hc => hmn hc.1
        have h2 : ¬(m = n ∧ j = i) := fun hc => hmn hc.1
        have h3 : ¬(m = n ∧ i ≤ j ∧ j < i + (k + 1)) := fun hc => hmn hc.1
        rw [if_neg h1, if_neg h2, if_neg h3]
    · rw [hlen1, hniEq, List.length_set]
    · rw [hlen2, hvlen]

/-- `removeAllInputs` preserves the consumer-mirror invariant. -/
theorem removeAllInputs_mirror (g : GraphState) (n : Nat) (g' : GraphState)
    (h : removeAllInputs g n = some g') (hm : ConsumerMirror g) : ConsumerMirror g' := by
  cases hni : g.nodeInputs[n]? with
  | none => simp [removeAllInputs, hni] at h
  | some ins =>
  cases hloop : dropAllLoop g n 0 ins.length with
  | none => simp [removeAllInputs, hni, hloop] at h
  | some g1 =>
  simp only [removeAllInputs, hni, hloop, Option.some.injEq] at h
  subst h
  obtain ⟨hcm, hinp, hlen1, _⟩ := dropAllLoop_descr ins.length g n 0 g1 hloop hm
  have hnlt : n < g1.nodeInputs.length := by
    rw [hlen1]
    exact lt_of_getElem?_some _ _ _ hni
  have hUses : ∀ v', usesOf { g1 with nodeInputs := g1.nodeInputs.set n [] } v' =
      usesOf g1 v' := by
    intro v'
    rfl
  have hInp : ∀ m j, inputAt { g1 with nodeInputs := g1.nodeInputs.set n [] } m j =
      if m = n then none else inputAt g1 m j := by
    intro m j
    show ((((g1.nodeInputs.set n [])[m]?).getD [])[j]?).getD none = _
    rw [getD_set_of_lt _ _ _ _ _ hnlt]
    by_cases hmn : m = n
    · simp [hmn]
    · simp [hmn, inputAt, inputsOf]
  have hgone : ∀ j, inputAt g1 n j = none := by
    intro j
    rw [hinp n j]
    by_cases hj : j < ins.length
    · rw [if_pos ⟨rfl, Nat.zero_le j, by omega⟩]
    · rw [if_neg (by rintro ⟨_, _, hc⟩; omega)]
      have : ins[j]? = none := List.getElem?_eq_none (by omega)
      simp [inputAt, inputsOf, hni, this]
  intro v' u
  rcases u with ⟨uu, uo⟩
  rw [hUses v', hInp uu uo]
  by_cases huu : uu = n
  · subst huu
    rw [if_pos rfl]
    have hc := hcm v' (⟨uu, uo⟩ : Use)
    rw [hc, hgone uo]
  · rw [if_neg huu]
    exact hcm v' ⟨uu, uo⟩

/-- Destructuring a successful `decUseOffsetAt`. -/
theorem decUseOffsetAt_descr (g : GraphState) (n j : Nat) (g1 : GraphState)
    (h : decUseOffsetAt g n j = some g1) :
    ∃ w us, inputAt g n j = some w ∧ g.valueUses[w]? = some us ∧
      (⟨n, j⟩ : Use) ∈ us ∧
      g1 = GraphState.mk g.nodeInputs g.nodeOutputs
        (g.valueUses.set w (decFirstUse us ⟨n, j⟩)) := by
  cases hw : inputAt g n j with
  | none => simp [decUseOffsetAt, hw] at h
  | some w =>
  cases hvw : g.valueUses[w]? with
  | none => simp [decUseOffsetAt, hw, hvw] at h
  | some us =>
  by_cases hmem : (⟨n, j⟩ : Use) ∈ us
  · simp only [decUseOffsetAt, hw, hvw, if_pos hmem, Option.some.injEq] at h
    refine ⟨w, us, ?_, ?_, hmem, h.symm⟩
    · simp [hw]
    · simp [hvw]
  · simp [decUseOffsetAt, hw, hvw, hmem] at h

/-- The renumbering map over an empty window is the identity. -/
theorem map_decInRange_self (l : List Use) (n j : Nat) :
    l.map (decInRange n j j) = l := by
  have h1 : ∀ x ∈ l, decInRange n j j x = x := by
    intro x _
    unfold decInRange
    split_ifs with hc
    · exfalso; omega
    · rfl
  calc l.map (decInRange n j j) = l.map id := List.map_eq_map_iff.mpr (fun x hx => h1 x hx)
    _ = l := List.map_id l

/-- On records other than `(n, j)` the windows `[j+1, hi)` and `[j, hi)`
renumber identically. -/
theorem decInRange_shift (n j hi : Nat) (x : Use) (hx : x ≠ ⟨n, j⟩) :
    decInRange n (j + 1) hi x = decInRange n j hi x := by
  rcases x with ⟨xu, xo⟩
  unfold decInRange
  by_cases hxu : xu = n
  · subst hxu
    have hxo : xo ≠ j := by
      intro hc
      exact hx (by rw [hc])
    have hiff : (j + 1 ≤ xo ∧ xo < hi) ↔ (j ≤ xo ∧ xo < hi) := by omega
    simp only [eq_self_iff_true, true_and, hiff]
  · have h1 : ¬(xu = n ∧ j + 1 ≤ xo ∧ xo < hi) := fun hc => hxu hc.1
    have h2 : ¬(xu = n ∧ j ≤ xo ∧ xo < hi) := fun hc => hxu hc.1
    rw [if_neg h1, if_neg h2]

/-- The two renumbering maps agree at the decremented record. -/
theorem decInRange_dec_at (n j k : Nat) (hj : 1 ≤ j) :
    decInRange n (j + 1) (j + 1 + k) (⟨n, j - 1⟩ : Use) = ⟨n, j - 1⟩ ∧
    decInRange n j (j + 1 + k) (⟨n, j⟩ : Use) = ⟨n, j - 1⟩ := by
  unfold decInRange
  constructor
  · have hc : ¬(n = n ∧ j + 1 ≤ j - 1 ∧ j - 1 < j + 1 + k) := by
      rintro ⟨_, h1, _⟩
      omega
    exact if_neg hc
  · have hc : n = n ∧ j ≤ j ∧ j < j + 1 + k := ⟨rfl, le_refl j, by omega⟩
    rw [if_pos hc]

/-- Counts of later records are unchanged by one `decUseOffsetAt` step. -/
theorem counts_after_dec (g : GraphState) (n j w : Nat) (us : List Use)
    (hwlt : w < g.valueUses.length) (husw : usesOf g w = us) :
    ∀ t v, j + 1 ≤ t →
    (usesOf (GraphState.mk g.nodeInputs g.nodeOutputs
        (g.valueUses.set w (decFirstUse us ⟨n, j⟩))) v).count ⟨n, t⟩ =
      (usesOf g v).count ⟨n, t⟩ := by
  intro t v ht
  have hU : usesOf (GraphState.mk g.nodeInputs g.nodeOutputs
      (g.valueUses.set w (decFirstUse us ⟨n, j⟩))) v =
      if v = w then decFirstUse us ⟨n, j⟩ else usesOf g v := by
    show ((g.valueUses.set w (decFirstUse us ⟨n, j⟩))[v]?).getD [] = _
    rw [getD_set_of_lt _ _ _ _ _ hwlt]
    rfl
  rw [hU]
  by_cases hv : v = w
  · rw [if_pos hv, hv, husw]
    have hne1 : (⟨n, t⟩ : Use) ≠ ⟨n, j⟩ := by
      rw [Ne, Use.mk.injEq]
      rintro ⟨_, hc⟩
      omega
    have hne2 : (⟨n, t⟩ : Use) ≠ ⟨n, j - 1⟩ := by
      rw [Ne, Use.mk.injEq]
      rintro ⟨_, hc⟩
      omega
    exact count_decFirstUse_of_ne us ⟨n, j⟩ ⟨n, t⟩ hne1 hne2
  · rw [if_neg hv]

/-- Characterisation of a successful `removeInput` renumbering loop: the
node structure is untouched and every consumer list is renumbered by
`decInRange` over the processed window. -/
theorem shiftUsesFrom_char (k : Nat) : ∀ (g : GraphState) (n j : Nat) (g' : GraphState),
    shiftUsesFrom g n j k = some g' → 1 ≤ j →
    (∀ t v, j ≤ t → t < j + k →
      (usesOf g v).count ⟨n, t⟩ = if inputAt g n t = some v then 1 else 0) →
    g'.nodeInputs = g.nodeInputs ∧ g'.nodeOutputs = g.nodeOutputs ∧
    g'.valueUses.length = g.valueUses.length ∧
    (∀ v, usesOf g' v = (usesOf g v).map (decInRange n j (j + k))) := by
  induction k with
  | zero =>
    intro g n j g' h _ _
    simp only [shiftUsesFrom, Option.some.injEq] at h
    subst h
    refine ⟨rfl, rfl, rfl, ?_⟩
    intro v
    simp only [Nat.add_zero]
    rw [map_decInRange_self]
  | succ k ih =>
    intro g n j g' h hj hcnt
    cases hdec : decUseOffsetAt g n j with
    | none => simp [shiftUsesFrom, hdec] at h
    | some g1 =>
    simp only [shiftUsesFrom, hdec] at h
    obtain ⟨w, us, hw, hvw, hmem, hg1⟩ := decUseOffsetAt_descr g n j g1 hdec
    have hwlt : w < g.valueUses.length := lt_of_getElem?_some _ _ _ hvw
    have husw : usesOf g w = us := by simp [usesOf, hvw]
    have hcw : us.count ⟨n, j⟩ = 1 := by
      have hc := hcnt j w (le_refl j) (by omega)
      rw [husw] at hc
      rw [hc, hw, if_pos rfl]
    have hc0 : ∀ v, v ≠ w → (usesOf g v).count ⟨n, j⟩ = 0 := by
      intro v hv
      have hc := hcnt j v (le_refl j) (by omega)
      rw [hc, hw]
      have hne : ¬((some w : Option Nat) = some v) := by
        simp
        exact fun hc2 => hv hc2.symm
      rw [if_neg hne]
    have huse1 : ∀ v, usesOf g1 v =
        if v = w then decFirstUse us ⟨n, j⟩ else usesOf g v := by
      intro v
      rw [hg1]
      show ((g.valueUses.set w (decFirstUse us ⟨n, j⟩))[v]?).getD [] = _
      rw [getD_set_of_lt _ _ _ _ _ hwlt]
      rfl
    have hI1 : ∀ m t, inputAt g1 m t = inputAt g m t := by
      intro m t
      rw [hg1]
      rfl
    have hcnt1 : ∀ t v, j + 1 ≤ t → t < j + 1 + k →
        (usesOf g1 v).count ⟨n, t⟩ = if inputAt g1 n t = some v then 1 else 0 := by
      intro t v ht1 ht2
      rw [hI1 n t, hg1, counts_after_dec g n j w us hwlt husw t v ht1]
      exact hcnt t v (by omega) (by omega)
    obtain ⟨hni', hno', hlen', hus'⟩ := ih g1 n (j + 1) g' h (by omega) hcnt1
    have harr : j + (k + 1) = j + 1 + k := by omega
    refine ⟨?_, ?_, ?_, ?_⟩
    · rw [hni', hg1]
    · rw [hno', hg1]
    · rw [hlen', hg1]
      show (g.valueUses.set w (decFirstUse us ⟨n, j⟩)).length = g.valueUses.length
      exact List.length_set g.valueUses w _
    · intro v
      rw [harr, hus' v, huse1 v]
      by_cases hv : v = w
      · rw [if_pos hv, hv, husw, decFirstUse_eq_map us ⟨n, j⟩ hcw, List.map_map]
        apply List.map_eq_map_iff.mpr
        intro x hx
        by_cases hxj : x = ⟨n, j⟩
        · subst hxj
          show decInRange n (j + 1) (j + 1 + k)
              (if (⟨n, j⟩ : Use) = ⟨n, j⟩ then (⟨n, j - 1⟩ : Use) else ⟨n, j⟩) =
            decInRange n j (j + 1 + k) ⟨n, j⟩
          rw [if_pos rfl, (decInRange_dec_at n j k hj).1, (decInRange_dec_at n j k hj).2]
        · simp only [Function.comp_apply, if_neg hxj]
          exact decInRange_shift n j (j + 1 + k) x hxj
      · rw [if_neg hv]
        apply List.map_eq_map_iff.mpr
        intro x hx
        have hxj : x ≠ ⟨n, j⟩ := by
          intro hc
          have hnm : (⟨n, j⟩ : Use) ∉ usesOf g v := List.count_eq_zero.mp (hc0 v hv)
          rw [hc] at hx
          exact hnm hx
        exact decInRange_shift n j (j + 1 + k) x hxj

/-- The renumbering loop succeeds whenever the window's slots are present
and mirrored. -/
theorem shiftUsesFrom_isSome (k : Nat) : ∀ (g : GraphState) (n j : Nat),
    (∀ t, j ≤ t → t < j + k → inputAt g n t ≠ none) →
    (∀ t v, j ≤ t → t < j + k →
      (usesOf g v).count ⟨n, t⟩ = if inputAt g n t = some v then 1 else 0) →
    ∃ g', shiftUsesFrom g n j k = some g' := by
  induction k with
  | zero =>
    intro g n j _ _
    exact ⟨g, rfl⟩
  | succ k ih =>
    intro g n j hnn hcnt
    cases hw : inputAt g n j with
    | none => exact absurd hw (hnn j (le_refl j) (by omega))
    | some w =>
    have hcw : (usesOf g w).count ⟨n, j⟩ = 1 := by
      have hc := hcnt j w (le_refl j) (by omega)
      rw [hc, hw, if_pos rfl]
    have hwlt : w < g.valueUses.length := by
      by_contra hge
      push_neg at hge
      have hemp : usesOf g w = [] := by
        simp [usesOf, List.getElem?_eq_none hge]
      rw [hemp] at hcw
      cases hcw
    have hmem : (⟨n, j⟩ : Use) ∈ usesOf g w := by
      by_contra hnm
      rw [List.count_eq_zero.mpr hnm] at hcw
      cases hcw
    have hvw : g.valueUses[w]? = some (usesOf g w) := by
      rw [List.getElem?_eq_getElem hwlt]
      simp [usesOf, List.getElem?_eq_getElem hwlt]
    have hdec : decUseOffsetAt g n j = some (GraphState.mk g.nodeInputs g.nodeOutputs
        (g.valueUses.set w (decFirstUse (usesOf g w) ⟨n, j⟩))) := by
      simp only [decUseOffsetAt, hw, hvw, if_pos hmem]
    have hcnt1 : ∀ t v, j + 1 ≤ t → t < j + 1 + k →
        (usesOf (GraphState.mk g.nodeInputs g.nodeOutputs
          (g.valueUses.set w (decFirstUse (usesOf g w) ⟨n, j⟩))) v).count ⟨n, t⟩ =
        if inputAt (GraphState.mk g.nodeInputs g.nodeOutputs
          (g.valueUses.set w (decFirstUse (usesOf g w) ⟨n, j⟩))) n t = some v
        then 1 else 0 := by
      intro t v ht1 ht2
      rw [counts_after_dec g n j w (usesOf g w) hwlt rfl t v ht1]
      exact hcnt t v (by omega) (by omega)
    have hnn1 : ∀ t, j + 1 ≤ t → t < j + 1 + k →
        inputAt (GraphState.mk g.nodeInputs g.nodeOutputs
          (g.valueUses.set w (decFirstUse (usesOf g w) ⟨n, j⟩))) n t ≠ none := by
      intro t ht1 ht2
      exact hnn t (by omega) (by omega)
    obtain ⟨g', hg'⟩ := ih _ n (j + 1) hnn1 hcnt1
    refine ⟨g', ?_⟩
    simp only [shiftUsesFrom, hdec]
    exact hg'

/-- Erasing the freshly nulled slot is the same as erasing the original
slot. -/
theorem eraseIdx_set_same {α : Type} (l : List α) (i : Nat) (a : α) :
    (l.set i a).eraseIdx i = l.eraseIdx i := by
  apply List.ext_getElem?
  intro j
  rw [List.getElem?_eraseIdx, List.getElem?_eraseIdx]
  by_cases hj : j < i
  · rw [if_pos hj, if_pos hj, List.getElem?_set]
    have : ¬(i = j) := by omega
    rw [if_neg this]
  · rw [if_neg hj, if_neg hj, List.getElem?_set]
    have : ¬(i = j + 1) := by omega
    rw [if_neg this]

/-- Characterisation of a successful `removeInput` on a mirrored state:
slot `i` disappears from the input list, the dropped `Use` leaves the
displaced value's consumer list, every later use record of this node is
renumbered down by one, and the mirror invariant holds again. -/
theorem removeInput_char_of_success (g : GraphState) (n i : Nat) (g' : GraphState)
    (h : removeInput g n i = some g') (hm : ConsumerMirror g) :
    ∃ ins vi, g.nodeInputs[n]? = some ins ∧ ins[i]? = some (some vi) ∧
    g'.nodeInputs = g.nodeInputs.set n (ins.eraseIdx i) ∧
    g'.nodeOutputs = g.nodeOutputs ∧
    g'.valueUses.length = g.valueUses.length ∧
    (∀ v, usesOf g' v =
      (if v = vi then (usesOf g vi).erase ⟨n, i⟩ else usesOf g v).map
        (decInRange n (i + 1) ins.length)) ∧
    ConsumerMirror g' := by
  cases hdrop : dropInput g n i with
  | none => simp [removeInput, hdrop] at h
  | some pr =>
  rcases pr with ⟨g1, vi⟩
  cases hni1 : g1.nodeInputs[n]? with
  | none => simp [removeInput, hdrop, hni1] at h
  | some ins1 =>
  cases hshift : shiftUsesFrom g1 n (i + 1) (ins1.length - (i + 1)) with
  | none => simp [removeInput, hdrop, hni1, hshift] at h
  | some g2 =>
  simp only [removeInput, hdrop, hni1, hshift, Option.some.injEq] at h
  subst h
  have hm1 : ConsumerMirror g1 := dropInput_mirror g n i g1 vi hdrop hm
  obtain ⟨hin, hUses1, hInp1, hvlen1, hno1, ins, hni, hii, hniEq⟩ :=
    dropInput_descr g n i g1 vi hdrop
  have hnlt : n < g.nodeInputs.length := lt_of_getElem?_some _ _ _ hni
  have hilt : i < ins.length := lt_of_getElem?_some _ _ _ hii
  have hins1 : ins1 = ins.set i none := by
    rw [hniEq, List.getElem?_set] at hni1
    simp [hnlt] at hni1
    exact hni1.symm
  have hlen1 : ins1.length = ins.length := by
    rw [hins1, List.length_set]
  obtain ⟨hni2, hno2, hlen2, hus2⟩ := shiftUsesFrom_char (ins1.length - (i + 1)) g1 n
    (i + 1) g2 hshift (by omega) (fun t v _ _ => hm1 v ⟨n, t⟩)
  have hwin : (i + 1) + (ins1.length - (i + 1)) = ins.length := by
    rw [hlen1]
    omega
  rw [hwin] at hus2
  have hniEq' : (GraphState.mk (g2.nodeInputs.set n (ins1.eraseIdx i)) g2.nodeOutputs
      g2.valueUses).nodeInputs = g.nodeInputs.set n (ins.eraseIdx i) := by
    show g2.nodeInputs.set n (ins1.eraseIdx i) = g.nodeInputs.set n (ins.eraseIdx i)
    rw [hni2, hniEq, hins1, eraseIdx_set_same, List.set_set]
  refine ⟨ins, vi, hni, hii, hniEq', ?_, ?_, ?_, ?_⟩
  · show g2.nodeOutputs = g.nodeOutputs
    rw [hno2, hno1]
  · show g2.valueUses.length = g.valueUses.length
    rw [hlen2, hvlen1]
  · intro v
    show usesOf g2 v = _
    rw [hus2 v, hUses1 v]
  · -- the mirror invariant holds in the final state
    have hUsesG' : ∀ v, usesOf (GraphState.mk (g2.nodeInputs.set n (ins1.eraseIdx i))
        g2.nodeOutputs g2.valueUses) v =
        (if v = vi then (usesOf g vi).erase ⟨n, i⟩ else usesOf g v).map
          (decInRange n (i + 1) ins.length) := by
      intro v
      show usesOf g2 v = _
      rw [hus2 v, hUses1 v]
    have hInp' : ∀ m j, inputAt (GraphState.mk (g2.nodeInputs.set n (ins1.eraseIdx i))
        g2.nodeOutputs g2.valueUses) m j =
        if m = n then (((ins.eraseIdx i)[j]?).getD none) else inputAt g m j := by
      intro m j
      show ((((g2.nodeInputs.set n (ins1.eraseIdx i))[m]?).getD [])[j]?).getD none = _
      rw [hni2, hniEq, hins1, eraseIdx_set_same, List.set_set]
      rw [getD_set_of_lt _ _ _ _ _ hnlt]
      by_cases hmn : m = n <;> simp [hmn, inputAt, inputsOf]
    have hInpG : ∀ o, inputAt g n o = ((ins[o]?).getD none) := by
      intro o
      simp [inputAt, inputsOf, hni]
    have hA : ∀ v o, (usesOf g v).count ⟨n, o⟩ =
        if ((ins[o]?).getD none : Option Nat) = some v then 1 else 0 := by
      intro v o
      rw [hm v ⟨n, o⟩, hInpG o]
    have hcnt_l : ∀ v o, ((if v = vi then (usesOf g vi).erase ⟨n, i⟩
        else usesOf g v)).count ⟨n, o⟩ =
        if o = i then 0 else (usesOf g v).count ⟨n, o⟩ := by
      intro v o
      by_cases ho : o = i
      · subst ho
        rw [if_pos rfl]
        by_cases hv : v = vi
        · rw [if_pos hv, List.count_erase_self, hm vi ⟨n, o⟩, hin, if_pos rfl]
        · rw [if_neg hv, hm v ⟨n, o⟩, hin]
          have hne : ¬((some vi : Option Nat) = some v) := by
            simp
            exact fun hc => hv hc.symm
          rw [if_neg hne]
      · rw [if_neg ho]
        by_cases hv : v = vi
        · rw [if_pos hv, hv]
          apply List.count_erase_of_ne
          rw [Ne, Use.mk.injEq]
          rintro ⟨_, hc⟩
          exact ho hc
        · rw [if_neg hv]
    intro v u
    rcases u with ⟨uu, uo⟩
    rw [hUsesG' v, hInp' uu uo]
    by_cases huu : uu = n
    · rw [huu, if_pos rfl]
      rw [count_map_decInRange _ n (i + 1) ins.length uo (by omega)]
      rw [List.getElem?_eraseIdx]
      rcases Nat.lt_trichotomy uo i with hlt | heq | hgt
      · rw [if_pos hlt]
        rw [if_neg (show ¬(i + 1 ≤ uo ∧ uo < ins.length) by rintro ⟨hc, _⟩; omega)]
        rw [if_neg (show ¬(i + 1 ≤ uo + 1 ∧ uo + 1 < ins.length) by rintro ⟨hc, _⟩; omega)]
        rw [hcnt_l v uo, if_neg (show ¬uo = i by omega), hA v uo, Nat.add_zero]
      · subst heq
        rw [if_neg (show ¬uo < uo by omega)]
        rw [if_neg (show ¬(uo + 1 ≤ uo ∧ uo < ins.length) by rintro ⟨hc, _⟩; omega)]
        rw [hcnt_l v uo, if_pos rfl, Nat.zero_add]
        by_cases h2 : uo + 1 < ins.length
        · rw [if_pos ⟨le_refl (uo + 1), h2⟩, hcnt_l v (uo + 1),
            if_neg (show ¬uo + 1 = uo by omega), hA v (uo + 1)]
        · rw [if_neg (show ¬(uo + 1 ≤ uo + 1 ∧ uo + 1 < ins.length) by rintro ⟨_, hc⟩; omega)]
          rw [List.getElem?_eq_none (show ins.length ≤ uo + 1 by omega)]
          simp
      · rw [if_neg (show ¬uo < i by omega)]
        have hfirst : (if i + 1 ≤ uo ∧ uo < ins.length then 0
            else (if v = vi then (usesOf g vi).erase ⟨n, i⟩ else usesOf g v).count ⟨n, uo⟩)
            = 0 := by
          by_cases h1 : uo < ins.length
          · rw [if_pos ⟨by omega, h1⟩]
          · rw [if_neg (show ¬(i + 1 ≤ uo ∧ uo < ins.length) by rintro ⟨_, hc⟩; omega)]
            rw [hcnt_l v uo, if_neg (show ¬uo = i by omega), hA v uo]
            rw [List.getElem?_eq_none (show ins.length ≤ uo by omega)]
            simp
        rw [hfirst, Nat.zero_add]
        by_cases h2 : uo + 1 < ins.length
        · rw [if_pos ⟨by omega, h2⟩, hcnt_l v (uo + 1),
            if_neg (show ¬uo + 1 = i by omega), hA v (uo + 1)]
        · rw [if_neg (show ¬(i + 1 ≤ uo + 1 ∧ uo + 1 < ins.length) by rintro ⟨_, hc⟩; omega)]
          rw [List.getElem?_eq_none (show ins.length ≤ uo + 1 by omega)]
          simp
    · rw [if_neg huu]
      rw [count_map_decInRange_other _ n (i + 1) ins.length ⟨uu, uo⟩ huu]
      by_cases hv : v = vi
      · rw [if_pos hv, hv]
        rw [List.count_erase_of_ne (show (⟨uu, uo⟩ : Use) ≠ ⟨n, i⟩ from by
          rw [Ne, Use.mk.injEq]
          rintro ⟨hc, _⟩
          exact huu hc)]
        exact hm vi ⟨uu, uo⟩
      · rw [if_neg hv]
        exact hm v ⟨uu, uo⟩

/-- On a mirrored state with a full (null-free) input list, `removeInput`
succeeds. -/
theorem removeInput_isSome (g : GraphState) (n i : Nat) (ins : List (Option Nat)) (vi : Nat)
    (hm : ConsumerMirror g) (hni : g.nodeInputs[n]? = some ins)
    (hii : ins[i]? = some (some vi)) (hall : ∀ o ∈ ins, o ≠ none) :
    ∃ g', removeInput g n i = some g' := by
  have hin : inputAt g n i = some vi := by
    simp [inputAt, inputsOf, hni, hii]
  have hcnt : (usesOf g vi).count ⟨n, i⟩ = 1 := by
    rw [hm vi ⟨n, i⟩, hin, if_pos rfl]
  have hvlt : vi < g.valueUses.length := by
    by_contra hge
    push_neg at hge
    have hemp : usesOf g vi = [] := by
      simp [usesOf, List.getElem?_eq_none hge]
    rw [hemp] at hcnt
    cases hcnt
  have hmem : (⟨n, i⟩ : Use) ∈ usesOf g vi := by
    by_contra hnm
    rw [List.count_eq_zero.mpr hnm] at hcnt
    cases hcnt
  have hvw : g.valueUses[vi]? = some (usesOf g vi) := by
    rw [List.getElem?_eq_getElem hvlt]
    simp [usesOf, List.getElem?_eq_getElem hvlt]
  have hdrop : dropInput g n i = some
      (GraphState.mk (g.nodeInputs.set n (ins.set i none)) g.nodeOutputs
        (g.valueUses.set vi ((usesOf g vi).erase ⟨n, i⟩)), vi) := by
    simp only [dropInput, hni, hii, hvw, if_pos hmem]
  have hnlt : n < g.nodeInputs.length := lt_of_getElem?_some _ _ _ hni
  have hm1 : ConsumerMirror (GraphState.mk (g.nodeInputs.set n (ins.set i none))
      g.nodeOutputs (g.valueUses.set vi ((usesOf g vi).erase ⟨n, i⟩))) :=
    dropInput_mirror g n i _ vi hdrop hm
  have hni1 : (GraphState.mk (g.nodeInputs.set n (ins.set i none)) g.nodeOutputs
      (g.valueUses.set vi ((usesOf g vi).erase ⟨n, i⟩))).nodeInputs[n]? =
      some (ins.set i none) := by
    show (g.nodeInputs.set n (ins.set i none))[n]? = _
    rw [List.getElem?_set]
    simp [hnlt]
  obtain ⟨_, _, hInp1, _, _, _⟩ := dropInput_descr g n i _ vi hdrop
  have hnn : ∀ t, i + 1 ≤ t → t < (i + 1) + ((ins.set i none).length - (i + 1)) →
      inputAt (GraphState.mk (g.nodeInputs.set n (ins.set i none)) g.nodeOutputs
        (g.valueUses.set vi ((usesOf g vi).erase ⟨n, i⟩))) n t ≠ none := by
    intro t ht1 ht2
    rw [hInp1 n t, if_neg (show ¬(n = n ∧ t = i) by rintro ⟨_, hc⟩; omega)]
    have htl : t < ins.length := by
      rw [List.length_set] at ht2
      omega
    have hsome := List.getElem?_eq_getElem htl
    have hmemo : ins[t] ∈ ins := List.getElem_mem htl
    intro hc
    simp only [inputAt, inputsOf, hni, Option.getD_some, hsome] at hc
    exact hall _ hmemo hc
  obtain ⟨g2, hshift⟩ := shiftUsesFrom_isSome ((ins.set i none).length - (i + 1)) _ n
    (i + 1) hnn (fun t v _ _ => hm1 v ⟨n, t⟩)
  refine ⟨GraphState.mk (g2.nodeInputs.set n ((ins.set i none).eraseIdx i))
    g2.nodeOutputs g2.valueUses, ?_⟩
  simp only [removeInput, hdrop, hni1, hshift]

/-- The executable mirror check implies the mirror invariant. -/
theorem consumerMirror_of_check (g : GraphState) (h : consumerMirrorB g = true) :
    ConsumerMirror g := by
  unfold consumerMirrorB at h
  rw [Bool.and_eq_true] at h
  obtain ⟨hA, hB⟩ := h
  rw [List.all_eq_true] at hA hB
  intro v u
  by_cases hin : inputAt g u.user u.offset = some v
  · rw [if_pos hin]
    have h1 : u.user < g.nodeInputs.length := by
      cases hx : g.nodeInputs[u.user]? with
      | none => simp [inputAt, inputsOf, hx] at hin
      | some ins => exact lt_of_getElem?_some _ _ _ hx
    have h2 : u.offset < (inputsOf g u.user).length := by
      by_contra hge
      push_neg at hge
      rw [inputAt, List.getElem?_eq_none hge] at hin
      cases hin
    have hBn := hB u.user (List.mem_range.mpr h1)
    rw [List.all_eq_true] at hBn
    have hBi := hBn u.offset (List.mem_range.mpr h2)
    rw [hin] at hBi
    rw [Bool.and_eq_true, decide_eq_true_eq, decide_eq_true_eq] at hBi
    obtain ⟨hvlt, hmemu⟩ := hBi
    have hAv := hA v (List.mem_range.mpr hvlt)
    rw [List.all_eq_true] at hAv
    have hAu := hAv u hmemu
    rw [Bool.and_eq_true, decide_eq_true_eq, beq_iff_eq] at hAu
    exact hAu.2
  · rw [if_neg hin]
    apply List.count_eq_zero.mpr
    intro hmemu
    by_cases hv : v < g.valueUses.length
    · have hAv := hA v (List.mem_range.mpr hv)
      rw [List.all_eq_true] at hAv
      have hAu := hAv u hmemu
      rw [Bool.and_eq_true, decide_eq_true_eq, beq_iff_eq] at hAu
      exact hin hAu.1
    · push_neg at hv
      have hemp : usesOf g v = [] := by
        simp [usesOf, List.getElem?_eq_none hv]
      rw [hemp] at hmemu
      cases hmemu

/-- Writing over the appended last element. -/
theorem set_concat_length {α : Type} (l : List α) (a b : α) :
    (l ++ [a]).set l.length b = l ++ [b] := by
  apply List.ext_getElem?
  intro j
  rw [List.getElem?_set]
  by_cases hj : l.length = j
  · subst hj
    rw [if_pos rfl]
    simp [List.getElem?_concat_length, List.length_append]
  · rw [if_neg hj]
    rw [List.getElem?_append, List.getElem?_append]
    by_cases hjl : j < l.length
    · rw [if_pos hjl, if_pos hjl]
    · rw [if_neg hjl, if_neg hjl]
      have h1 : ([a] : List α)[j - l.length]? = none := by
        apply List.getElem?_eq_none
        simp only [List.length_cons, List.length_nil]
        omega
      have h2 : ([b] : List α)[j - l.length]? = none := by
        apply List.getElem?_eq_none
        simp only [List.length_cons, List.length_nil]
        omega
      rw [h1, h2]

/-- Erasing the appended last element restores the list. -/
theorem eraseIdx_concat_length {α : Type} (l : List α) (a : α) :
    (l ++ [a]).eraseIdx l.length = l := by
  apply List.ext_getElem?
  intro j
  rw [List.getElem?_eraseIdx]
  by_cases hj : j < l.length
  · rw [if_pos hj, List.getElem?_append, if_pos hj]
  · rw [if_neg hj]
    have h1 : (l ++ [a])[j + 1]? = none := by
      apply List.getElem?_eq_none
      simp only [List.length_append, List.length_cons, List.length_nil]
      omega
    have h2 : l[j]? = none := List.getElem?_eq_none (by omega)
    rw [h1, h2]

/-- C1: each of the five input-edit operations — `addInput`,
`replaceInput`, `replaceInputWith`, `removeInput`, `removeAllInputs` —
preserves the mirror invariant: every Value's consumer list equals
exactly the set of (node, slot) pairs whose input currently points at
that Value. -/
theorem input_edits_preserve_consumer_mirror :
    (∀ g n v g', addInput g n v = some g' → ConsumerMirror g → ConsumerMirror g') ∧
    (∀ g n i w pr, replaceInput g n i w = some pr → ConsumerMirror g →
      ConsumerMirror pr.1) ∧
    (∀ g n f t g', replaceInputWith g n f t = some g' → ConsumerMirror g →
      ConsumerMirror g') ∧
    (∀ g n i g', removeInput g n i = some g' → ConsumerMirror g → ConsumerMirror g') ∧
    (∀ g n g', removeAllInputs g n = some g' → ConsumerMirror g → ConsumerMirror g') := by
  refine ⟨?_, ?_, ?_, ?_, ?_⟩
  · intro g n v g' h hm
    exact addInput_mirror g n v g' h hm
  · intro g n i w pr h hm
    exact replaceInput_mirror g n i w pr.1 pr.2 (by rw [← h]) hm
  · intro g n f t g' h hm
    exact replaceInputWith_mirror g n f t g' h hm
  · intro g n i g' h hm
    obtain ⟨_, _, _, _, _, _, _, _, hcm⟩ := removeInput_char_of_success g n i g' h hm
    exact hcm
  · intro g n g' h hm
    exact removeAllInputs_mirror g n g' h hm

theorem input_edits_preserve_consumer_mirror_witness :
    ConsumerMirror gW1 ∧ ConsumerMirror gW2 ∧ ConsumerMirror gW2 ∧
    ConsumerMirror gW3 ∧ ConsumerMirror gW3 :=
  ⟨input_edits_preserve_consumer_mirror.1 gW0 0 1 gW1 (by decide)
     (consumerMirror_of_check gW0 (by decide)),
   input_edits_preserve_consumer_mirror.2.1 gW0 0 0 1 (gW2, 0) (by decide)
     (consumerMirror_of_check gW0 (by decide)),
   input_edits_preserve_consumer_mirror.2.2.1 gW0 0 0 1 gW2 (by decide)
     (consumerMirror_of_check gW0 (by decide)),
   input_edits_preserve_consumer_mirror.2.2.2.1 gW0 0 0 gW3 (by decide)
     (consumerMirror_of_check gW0 (by decide)),
   input_edits_preserve_consumer_mirror.2.2.2.2 gW0 0 gW3 (by decide)
     (consumerMirror_of_check gW0 (by decide))⟩

/-- C3: on a mirrored graph, `removeInput(i)` of a node with input list
`ins` and `i < ins.length` succeeds; it removes `Use(this, i)` from the
consumer list of the value at slot `i`, erases slot `i` from the input
list, decrements by one the recorded offset of the use record of every
subsequent slot `j` with `i < j < ins.length`, and the offsets stored in
the consumer lists again match the node's input array (the mirror
invariant holds afterwards). -/
theorem removeInput_spec (g : GraphState) (n i : Nat) (ins : List (Option Nat)) (vi : Nat)
    (hm : ConsumerMirror g) (hni : g.nodeInputs[n]? = some ins)
    (hii : ins[i]? = some (some vi)) (hall : ∀ o ∈ ins, o ≠ none) :
    ∃ g', removeInput g n i = some g' ∧
      g'.nodeInputs = g.nodeInputs.set n (ins.eraseIdx i) ∧
      (∀ v, usesOf g' v =
        (if v = vi then (usesOf g vi).erase ⟨n, i⟩ else usesOf g v).map
          (decInRange n (i + 1) ins.length)) ∧
      ConsumerMirror g' := by
  obtain ⟨g', hrem⟩ := removeInput_isSome g n i ins vi hm hni hii hall
  obtain ⟨ins2, vi2, hni2, hii2, hA, _, _, hB, hC⟩ :=
    removeInput_char_of_success g n i g' hrem hm
  have he1 : ins2 = ins := by
    rw [hni2] at hni
    injection hni
  subst he1
  have he2 : vi2 = vi := by
    rw [hii2] at hii
    injection hii with hii'
    injection hii'
  subst he2
  exact ⟨g', hrem, hA, hB, hC⟩

theorem removeInput_spec_witness :
    ∃ g', removeInput gW0 0 0 = some g' ∧
      g'.nodeInputs = gW0.nodeInputs.set 0 (([some 0] : List (Option Nat)).eraseIdx 0) ∧
      (∀ v, usesOf g' v =
        (if v = 0 then (usesOf gW0 0).erase ⟨0, 0⟩ else usesOf gW0 v).map
          (decInRange 0 1 1)) ∧
      ConsumerMirror g' :=
  removeInput_spec gW0 0 0 [some 0] 0 (consumerMirror_of_check gW0 (by decide))
    (by decide) (by decide) (by decide)

/-- C4: on a mirrored graph, `addInput(v)` appends `v` at index `m` (the
previous input count) and a subsequent `removeInput(m)` restores the
graph state exactly — the input list, `v`'s consumer list, and every
other value's consumer list are all back to their pre-call state (the
later-slot renumbering loop is vacuous and correct for the last slot). -/
theorem addInput_removeInput_roundtrip (g : GraphState) (n v : Nat)
    (ins : List (Option Nat)) (us : List Use) (hm : ConsumerMirror g)
    (hni : g.nodeInputs[n]? = some ins) (hvu : g.valueUses[v]? = some us) :
    ∃ ga, addInput g n v = some ga ∧ removeInput ga n ins.length = some g := by
  have hnlt : n < g.nodeInputs.length := lt_of_getElem?_some _ _ _ hni
  have hvlt : v < g.valueUses.length := lt_of_getElem?_some _ _ _ hvu
  have husv : usesOf g v = us := by simp [usesOf, hvu]
  have ha : addInput g n v = some (GraphState.mk (g.nodeInputs.set n (ins ++ [some v]))
      g.nodeOutputs (g.valueUses.set v (us ++ [⟨n, ins.length⟩]))) := by
    simp only [addInput, hni, hvu]
  refine ⟨_, ha, ?_⟩
  have hgan : (GraphState.mk (g.nodeInputs.set n (ins ++ [some v])) g.nodeOutputs
      (g.valueUses.set v (us ++ [⟨n, ins.length⟩]))).nodeInputs[n]? =
      some (ins ++ [some v]) := by
    show (g.nodeInputs.set n (ins ++ [some v]))[n]? = _
    rw [List.getElem?_set]
    simp [hnlt]
  have hgav : (GraphState.mk (g.nodeInputs.set n (ins ++ [some v])) g.nodeOutputs
      (g.valueUses.set v (us ++ [⟨n, ins.length⟩]))).valueUses[v]? =
      some (us ++ [⟨n, ins.length⟩]) := by
    show (g.valueUses.set v (us ++ [⟨n, ins.length⟩]))[v]? = _
    rw [List.getElem?_set]
    simp [hvlt]
  have hnotin : (⟨n, ins.length⟩ : Use) ∉ us := by
    have hc := hm v ⟨n, ins.length⟩
    rw [husv] at hc
    have hnone : inputAt g n ins.length = none := by
      simp [inputAt, inputsOf, hni, List.getElem?_eq_none (le_refl ins.length)]
    rw [hnone, if_neg (by simp)] at hc
    exact List.count_eq_zero.mp hc
  have herase : (us ++ [(⟨n, ins.length⟩ : Use)]).erase ⟨n, ins.length⟩ = us := by
    rw [List.erase_append_right _ hnotin, List.erase_cons_head, List.append_nil]
  have hset1 : (ins ++ [some v]).set ins.length none = ins ++ [none] :=
    set_concat_length ins (some v) none
  have hmem : (⟨n, ins.length⟩ : Use) ∈ us ++ [(⟨n, ins.length⟩ : Use)] := by
    simp
  have hdrop : dropInput (GraphState.mk (g.nodeInputs.set n (ins ++ [some v]))
      g.nodeOutputs (g.valueUses.set v (us ++ [⟨n, ins.length⟩]))) n ins.length =
      some (GraphState.mk ((g.nodeInputs.set n (ins ++ [some v])).set n (ins ++ [none]))
        g.nodeOutputs ((g.valueUses.set v (us ++ [⟨n, ins.length⟩])).set v us), v) := by
    simp only [dropInput, hgan, hgav, List.getElem?_concat_length, if_pos hmem,
      hset1, herase]
  have hni1 : (GraphState.mk ((g.nodeInputs.set n (ins ++ [some v])).set n (ins ++ [none]))
      g.nodeOutputs ((g.valueUses.set v (us ++ [⟨n, ins.length⟩])).set v us)).nodeInputs[n]? =
      some (ins ++ [none]) := by
    show ((g.nodeInputs.set n (ins ++ [some v])).set n (ins ++ [none]))[n]? = _
    rw [List.getElem?_set]
    simp [hnlt]
  have hk : (ins ++ [(none : Option Nat)]).length - (ins.length + 1) = 0 := by
    simp
  have hrem : removeInput (GraphState.mk (g.nodeInputs.set n (ins ++ [some v]))
      g.nodeOutputs (g.valueUses.set v (us ++ [⟨n, ins.length⟩]))) n ins.length =
      some (GraphState.mk
        (((g.nodeInputs.set n (ins ++ [some v])).set n (ins ++ [none])).set n
          ((ins ++ [none]).eraseIdx ins.length))
        g.nodeOutputs ((g.valueUses.set v (us ++ [⟨n, ins.length⟩])).set v us)) := by
    simp only [removeInput, hdrop, hni1, hk, shiftUsesFrom]
  rw [hrem]
  have heI : (ins ++ [(none : Option Nat)]).eraseIdx ins.length = ins :=
    eraseIdx_concat_length ins none
  rw [heI, List.set_set, List.set_set, List.set_set,
    set_getElem?_self _ _ _ hni, set_getElem?_self _ _ _ hvu]

theorem addInput_removeInput_roundtrip_witness :
    ∃ ga, addInput gW0 0 1 = some ga ∧ removeInput ga 0 1 = some gW0 :=
  addInput_removeInput_roundtrip gW0 0 1 [some 0] []
    (consumerMirror_of_check gW0 (by decide)) (by decide) (by decide)

/-- Destructuring a successful raw input-slot store. -/
theorem setInputSlot_some_elim (g : GraphState) (n i w : Nat) (ga : GraphState)
    (h : setInputSlot g n i w = some ga) :
    ∃ ins, g.nodeInputs[n]? = some ins ∧ i < ins.length ∧
      ga = GraphState.mk (g.nodeInputs.set n (ins.set i (some w))) g.nodeOutputs
        g.valueUses := by
  cases hni : g.nodeInputs[n]? with
  | none => simp [setInputSlot, hni] at h
  | some ins =>
  by_cases hi : i < ins.length
  · simp only [setInputSlot, hni, if_pos hi, Option.some.injEq] at h
    exact ⟨ins, rfl, hi, h.symm⟩
  · simp [setInputSlot, hni, hi] at h

/-- Reading any slot after a raw store. -/
theorem inputAt_setInputSlot (g : GraphState) (n i w : Nat) (ga : GraphState)
    (h : setInputSlot g n i w = some ga) :
    ∀ m j, inputAt ga m j = if m = n ∧ j = i then some w else inputAt g m j := by
  obtain ⟨ins, hni, hilt, hga⟩ := setInputSlot_some_elim g n i w ga h
  have hnlt : n < g.nodeInputs.length := lt_of_getElem?_some _ _ _ hni
  intro m j
  rw [hga]
  show ((((g.nodeInputs.set n (ins.set i (some w)))[m]?).getD [])[j]?).getD none = _
  rw [getD_set_of_lt _ _ _ _ _ hnlt]
  by_cases hmn : m = n
  · subst hmn
    rw [if_pos rfl, List.getElem?_set]
    by_cases hji : i = j
    · subst hji
      simp [hilt]
    · have hji2 : ¬(j = i) := fun hh => hji hh.symm
      simp [hji, hji2, inputAt, inputsOf, hni]
  · have hc : ¬(m = n ∧ j = i) := fun hc => hmn hc.1
    simp [hmn, hc, inputAt, inputsOf]

/-- A successful rewrite loop leaves any slot already pointing at `w`
pointing at `w`. -/
theorem rewriteUsesLoop_keeps (us : List Use) : ∀ (g : GraphState) (w : Nat)
    (g1 : GraphState) (m j : Nat), rewriteUsesLoop g us w = some g1 →
    inputAt g m j = some w → inputAt g1 m j = some w := by
  induction us with
  | nil =>
    intro g w g1 m j h hp
    simp only [rewriteUsesLoop, Option.some.injEq] at h
    subst h
    exact hp
  | cons u us ih =>
    intro g w g1 m j h hp
    cases hset : setInputSlot g u.user u.offset w with
    | none => simp [rewriteUsesLoop, hset] at h
    | some ga =>
    simp only [rewriteUsesLoop, hset] at h
    apply ih ga w g1 m j h
    rw [inputAt_setInputSlot g u.user u.offset w ga hset m j]
    by_cases hc : m = u.user ∧ j = u.offset
    · rw [if_pos hc]
    · rw [if_neg hc]
      exact hp

/-- A successful rewrite loop touches only node inputs and makes every
listed slot point at `w`. -/
theorem rewriteUsesLoop_char (us : List Use) : ∀ (g : GraphState) (w : Nat)
    (g1 : GraphState), rewriteUsesLoop g us w = some g1 →
    g1.valueUses = g.valueUses ∧ g1.nodeOutputs = g.nodeOutputs ∧
    (∀ u ∈ us, inputAt g1 u.user u.offset = some w) := by
  induction us with
  | nil =>
    intro g w g1 h
    simp only [rewriteUsesLoop, Option.some.injEq] at h
    subst h
    exact ⟨rfl, rfl, by intro u hu; cases hu⟩
  | cons u us ih =>
    intro g w g1 h
    cases hset : setInputSlot g u.user u.offset w with
    | none => simp [rewriteUsesLoop, hset] at h
    | some ga =>
    simp only [rewriteUsesLoop, hset] at h
    obtain ⟨ins, hni, hilt, hga⟩ := setInputSlot_some_elim g u.user u.offset w ga hset
    obtain ⟨hv1, ho1, hall⟩ := ih ga w g1 h
    refine ⟨?_, ?_, ?_⟩
    · rw [hv1, hga]
    · rw [ho1, hga]
    · intro x hx
      rcases List.mem_cons.mp hx with hx1 | hx2
      · subst hx1
        apply rewriteUsesLoop_keeps us ga w g1 x.user x.offset h
        rw [inputAt_setInputSlot g x.user x.offset w ga hset x.user x.offset]
        rw [if_pos ⟨rfl, rfl⟩]
      · exact hall x hx2

/-- C2: for a Value `v` with consumer list `usv` and a distinct Value `w`
with consumer list `usw`, `v.replaceAllUsesWith(w)` empties `v`'s
consumer list, leaves every former consumer's input at its recorded slot
pointing at `w`, and appends the moved Use records to `w`'s consumer list
in their original relative order; `Node::replaceAllUsesWith` asserts
equal output arity (fatal `none` on mismatch) and otherwise folds the
per-value replacement over the outputs paired index by index. -/
theorem replaceAllUsesWith_spec :
    (∀ g v w g' usv usw, v ≠ w → g.valueUses[v]? = some usv →
      g.valueUses[w]? = some usw → valueReplaceAllUsesWith g v w = some g' →
      usesOf g' v = [] ∧ usesOf g' w = usw ++ usv ∧
      (∀ u ∈ usv, inputAt g' u.user u.offset = some w)) ∧
    (∀ g n m os osm, g.nodeOutputs[n]? = some os → g.nodeOutputs[m]? = some osm →
      os.length ≠ osm.length → nodeReplaceAllUsesWith g n m = none) ∧
    (∀ g n m g', nodeReplaceAllUsesWith g n m = some g' →
      ∃ os osm, g.nodeOutputs[n]? = some os ∧ g.nodeOutputs[m]? = some osm ∧
        os.length = osm.length ∧ nodeRAUWLoop g (os.zip osm) = some g') := by
  refine ⟨?_, ?_, ?_⟩
  · intro g v w g' usv usw hvw hv hw h
    cases hloop : rewriteUsesLoop g usv w with
    | none => simp [valueReplaceAllUsesWith, hv, hw, hloop] at h
    | some g1 =>
    simp only [valueReplaceAllUsesWith, hv, hw, hloop, Option.some.injEq] at h
    subst h
    obtain ⟨hv1, _, hall⟩ := rewriteUsesLoop_char usv g w g1 hloop
    have hvlt : v < g1.valueUses.length := by
      rw [hv1]
      exact lt_of_getElem?_some _ _ _ hv
    have hwlt : w < g1.valueUses.length := by
      rw [hv1]
      exact lt_of_getElem?_some _ _ _ hw
    have hwlt2 : w < (g1.valueUses.set w (usw ++ usv)).length := by
      rw [List.length_set]
      exact hwlt
    have hvlt2 : v < (g1.valueUses.set w (usw ++ usv)).length := by
      rw [List.length_set]
      exact hvlt
    refine ⟨?_, ?_, ?_⟩
    · show ((((g1.valueUses.set w (usw ++ usv)).set v [])[v]?).getD []) = []
      rw [getD_set_of_lt _ _ _ _ _ hvlt2]
      rw [if_pos rfl]
    · show ((((g1.valueUses.set w (usw ++ usv)).set v [])[w]?).getD []) = usw ++ usv
      rw [getD_set_of_lt _ _ _ _ _ hvlt2]
      rw [if_neg (fun hc => hvw hc.symm)]
      show ((g1.valueUses.set w (usw ++ usv))[w]?).getD [] = usw ++ usv
      rw [getD_set_of_lt _ _ _ _ _ hwlt]
      rw [if_pos rfl]
    · intro u hu
      exact hall u hu
  · intro g n m os osm hn hm hne
    simp [nodeReplaceAllUsesWith, hn, hm, hne]
  · intro g n m g' h
    cases hn : g.nodeOutputs[n]? with
    | none => simp [nodeReplaceAllUsesWith, hn] at h
    | some os =>
    cases hm : g.nodeOutputs[m]? with
    | none => simp [nodeReplaceAllUsesWith, hn, hm] at h
    | some osm =>
    by_cases hle : os.length = osm.length
    · simp only [nodeReplaceAllUsesWith, hn, hm, if_pos hle] at h
      exact ⟨os, osm, rfl, rfl, hle, h⟩
    · simp [nodeReplaceAllUsesWith, hn, hm, hle] at h

theorem replaceAllUsesWith_spec_witness :
    (usesOf gR1 0 = [] ∧
      usesOf gR1 2 = [] ++ [⟨0, 0⟩, ⟨1, 0⟩, ⟨1, 1⟩] ∧
      (∀ u ∈ ([⟨0, 0⟩, ⟨1, 0⟩, ⟨1, 1⟩] : List Use),
        inputAt gR1 u.user u.offset = some 2)) ∧
    nodeReplaceAllUsesWith gR0 0 2 = none ∧
    (∃ os osm, gR0.nodeOutputs[1]? = some os ∧ gR0.nodeOutputs[1]? = some osm ∧
      os.length = osm.length ∧ nodeRAUWLoop gR0 (os.zip osm) = some gR0) :=
  ⟨replaceAllUsesWith_spec.1 gR0 0 2 gR1 [⟨0, 0⟩, ⟨1, 0⟩, ⟨1, 1⟩] [] (by decide)
     (by decide) (by decide) (by decide),
   replaceAllUsesWith_spec.2.1 gR0 0 2 [0] [] (by decide) (by decide) (by decide),
   replaceAllUsesWith_spec.2.2 gR0 1 1 gR0 (by decide)⟩

/-- Lengths are unchanged by a `next` store. -/
theorem length_setNxt (s : ListState) (i : Nat) (v : Option Nat) :
    (setNxt s i v).nodes.length = s.nodes.length := by
  unfold setNxt
  cases s.nodes[i]? with
  | none => rfl
  | some l => simp [List.length_set]

/-- Lengths are unchanged by a `prev` store. -/
theorem length_setPrv (s : ListState) (i : Nat) (v : Option Nat) :
    (setPrv s i v).nodes.length = s.nodes.length := by
  unfold setPrv
  cases s.nodes[i]? with
  | none => rfl
  | some l => simp [List.length_set]

/-- Reading `next` of the node just written. -/
theorem nextOf_setNxt_self (s : ListState) (i : Nat) (v : Option Nat)
    (h : i < s.nodes.length) : nextOf (setNxt s i v) i = v := by
  unfold setNxt
  rw [List.getElem?_eq_getElem h]
  show nextOf ⟨s.nodes.set i _⟩ i = v
  unfold nextOf
  show ((s.nodes.set i _)[i]?).bind _ = v
  rw [List.getElem?_set]
  simp [h]

/-- Reading `next` of any other node after a `next` store. -/
theorem nextOf_setNxt_other (s : ListState) (i : Nat) (v : Option Nat) (j : Nat)
    (h : j ≠ i) : nextOf (setNxt s i v) j = nextOf s j := by
  unfold setNxt
  cases hx : s.nodes[i]? with
  | none => rfl
  | some l =>
    unfold nextOf
    show ((s.nodes.set i _)[j]?).bind _ = _
    rw [List.getElem?_set]
    rw [if_neg (fun hc => h hc.symm)]

/-- A `next` store does not change any `prev` pointer. -/
theorem prevOf_setNxt (s : ListState) (i : Nat) (v : Option Nat) (j : Nat) :
    prevOf (setNxt s i v) j = prevOf s j := by
  unfold setNxt
  cases hx : s.nodes[i]? with
  | none => rfl
  | some l =>
    unfold prevOf
    show ((s.nodes.set i _)[j]?).bind _ = _
    rw [List.getElem?_set]
    by_cases hij : i = j
    · subst hij
      have hlt : i < s.nodes.length := lt_of_getElem?_some _ _ _ hx
      simp [hlt, hx]
    · rw [if_neg hij]

/-- Reading `prev` of the node just written. -/
theorem prevOf_setPrv_self (s : ListState) (i : Nat) (v : Option Nat)
    (h : i < s.nodes.length) : prevOf (setPrv s i v) i = v := by
  unfold setPrv
  rw [List.getElem?_eq_getElem h]
  unfold prevOf
  show ((s.nodes.set i _)[i]?).bind _ = v
  rw [List.getElem?_set]
  simp [h]

/-- Reading `prev` of any other node after a `prev` store. -/
theorem prevOf_setPrv_other (s : ListState) (i : Nat) (v : Option Nat) (j : Nat)
    (h : j ≠ i) : prevOf (setPrv s i v) j = prevOf s j := by
  unfold setPrv
  cases hx : s.nodes[i]? with
  | none => rfl
  | some l =>
    unfold prevOf
    show ((s.nodes.set i _)[j]?).bind _ = _
    rw [List.getElem?_set]
    rw [if_neg (fun hc => h hc.symm)]

/-- A `prev` store does not change any `next` pointer. -/
theorem nextOf_setPrv (s : ListState) (i : Nat) (v : Option Nat) (j : Nat) :
    nextOf (setPrv s i v) j = nextOf s j := by
  unfold setPrv
  cases hx : s.nodes[i]? with
  | none => rfl
  | some l =>
    unfold nextOf
    show ((s.nodes.set i _)[j]?).bind _ = _
    rw [List.getElem?_set]
    by_cases hij : i = j
    · subst hij
      have hlt : i < s.nodes.length := lt_of_getElem?_some _ _ _ hx
      simp [hlt, hx]
    · rw [if_neg hij]

/-- A non-null `next` pointer implies the node id is in range. -/
theorem lt_of_nextOf_some (s : ListState) (x a : Nat) (h : nextOf s x = some a) :
    x < s.nodes.length := by
  unfold nextOf at h
  cases hx : s.nodes[x]? with
  | none => rw [hx] at h; cases h
  | some l => exact lt_of_getElem?_some _ _ _ hx

/-- A non-null `prev` pointer implies the node id is in range. -/
theorem lt_of_prevOf_some (s : ListState) (x b : Nat) (h : prevOf s x = some b) :
    x < s.nodes.length := by
  unfold prevOf at h
  cases hx : s.nodes[x]? with
  | none => rw [hx] at h; cases h
  | some l => exact lt_of_getElem?_some _ _ _ hx

/-- Destructuring `inGraphList = some false`: a fully detached node. -/
theorem inGraphList_false_elim (s : ListState) (n : Nat)
    (h : inGraphList s n = some false) :
    n < s.nodes.length ∧ nextOf s n = none ∧ prevOf s n = none := by
  cases hx : s.nodes[n]? with
  | none => simp [inGraphList, hx] at h
  | some l =>
    by_cases hc : l.nxt = none ∧ l.prv ≠ none
    · simp [inGraphList, hx, hc] at h
    · simp only [inGraphList, hx, if_neg hc, Option.some.injEq] at h
      have hnn : l.nxt = none := by
        cases hl : l.nxt with
        | none => rfl
        | some a => rw [hl] at h; cases h
      have hpn : l.prv = none := by
        by_contra hpn
        exact hc ⟨hnn, hpn⟩
      refine ⟨lt_of_getElem?_some _ _ _ hx, ?_, ?_⟩
      · simp [nextOf, hx, hnn]
      · simp [prevOf, hx, hpn]

/-- Destructuring `inGraphList = some true`: the node has a `next`. -/
theorem inGraphList_true_elim (s : ListState) (n : Nat)
    (h : inGraphList s n = some true) :
    n < s.nodes.length ∧ ∃ a, nextOf s n = some a := by
  cases hx : s.nodes[n]? with
  | none => simp [inGraphList, hx] at h
  | some l =>
    by_cases hc : l.nxt = none ∧ l.prv ≠ none
    · simp [inGraphList, hx, hc] at h
    · simp only [inGraphList, hx, if_neg hc, Option.some.injEq] at h
      cases hl : l.nxt with
      | none => rw [hl] at h; cases h
      | some a =>
        refine ⟨lt_of_getElem?_some _ _ _ hx, a, ?_⟩
        simp [nextOf, hx, hl]

/-- Destructuring a successful `insertAfter`. -/
theorem insertAfter_some_elim (s : ListState) (m n : Nat) (s' : ListState)
    (h : insertAfter s m n = some s') :
    inGraphList s m = some false ∧ inGraphList s n = some true ∧
    ∃ nx, nextOf s n = some nx ∧
      s' = setPrv (setNxt (setPrv (setNxt s n (some m)) m (some n)) m (some nx))
        nx (some m) := by
  cases hm : inGraphList s m with
  | none => simp [insertAfter, hm] at h
  | some bm =>
  cases hn : inGraphList s n with
  | none => simp [insertAfter, hm, hn] at h
  | some bn =>
  cases bm with
  | true => simp [insertAfter, hm, hn] at h
  | false =>
  cases bn with
  | false => simp [insertAfter, hm, hn] at h
  | true =>
  cases hnx : nextOf s n with
  | none => simp [insertAfter, hm, hn, hnx] at h
  | some nx =>
    simp only [insertAfter, hm, hn, hnx, Option.some.injEq] at h
    exact ⟨rfl, rfl, nx, rfl, h.symm⟩

/-- Destructuring a successful `removeFromList`. -/
theorem removeFromList_some_elim (s : ListState) (m : Nat) (s' : ListState)
    (h : removeFromList s m = some s') :
    inGraphList s m = some true ∧
    ∃ nx pv, nextOf s m = some nx ∧ prevOf s m = some pv ∧
      s' = setPrv (setNxt (setPrv (setNxt s pv (some nx)) nx (some pv)) m none)
        m none := by
  cases hm : inGraphList s m with
  | none => simp [removeFromList, hm] at h
  | some bm =>
  cases bm with
  | false => simp [removeFromList, hm] at h
  | true =>
  cases hnx : nextOf s m with
  | none => simp [removeFromList, hm, hnx] at h
  | some nx =>
  cases hpv : prevOf s m with
  | none => simp [removeFromList, hm, hnx, hpv] at h
  | some pv =>
    simp only [removeFromList, hm, hnx, hpv, Option.some.injEq] at h
    exact ⟨rfl, nx, pv, rfl, rfl, h.symm⟩

/-- Pointer-level description of a successful `insertAfter` on an
invariant state. -/
theorem insertAfter_accessors (s : ListState) (m n : Nat) (s' : ListState)
    (h : insertAfter s m n = some s') (hinv : LinkInvariant s) :
    ∃ nx, nextOf s n = some nx ∧ m ≠ n ∧ m ≠ nx ∧
      nextOf s m = none ∧ prevOf s m = none ∧ prevOf s nx = some n ∧
      (∀ x, nextOf s' x =
        if x = m then some nx else if x = n then some m else nextOf s x) ∧
      (∀ x, prevOf s' x =
        if x = nx then some m else if x = m then some n else prevOf s x) := by
  obtain ⟨hmF, hnT, nx, hnx, hs'⟩ := insertAfter_some_elim s m n s' h
  obtain ⟨hmlen, hnm_none, hpm_none⟩ := inGraphList_false_elim s m hmF
  obtain ⟨hnlen, _⟩ := inGraphList_true_elim s n hnT
  have hpnx : prevOf s nx = some n := (hinv n).2.1 nx hnx
  have hnxlen : nx < s.nodes.length := lt_of_prevOf_some s nx n hpnx
  have hmn : m ≠ n := by
    intro hc
    have h2 := hnx
    rw [← hc, hnm_none] at h2
    cases h2
  have hmnx : m ≠ nx := by
    intro hc
    have h2 := hpnx
    rw [← hc, hpm_none] at h2
    cases h2
  have hl1 : (setNxt s n (some m)).nodes.length = s.nodes.length := length_setNxt s n _
  have hl2 : (setPrv (setNxt s n (some m)) m (some n)).nodes.length = s.nodes.length := by
    rw [length_setPrv, hl1]
  have hl3 : (setNxt (setPrv (setNxt s n (some m)) m (some n)) m
      (some nx)).nodes.length = s.nodes.length := by
    rw [length_setNxt, hl2]
  refine ⟨nx, hnx, hmn, hmnx, hnm_none, hpm_none, hpnx, ?_, ?_⟩
  · intro x
    rw [hs', nextOf_setPrv]
    by_cases hxm : x = m
    · rw [if_pos hxm, hxm]
      exact nextOf_setNxt_self _ m (some nx) (by rw [hl2]; exact hmlen)
    · rw [if_neg hxm, nextOf_setNxt_other _ _ _ _ hxm, nextOf_setPrv]
      by_cases hxn : x = n
      · rw [if_pos hxn, hxn]
        exact nextOf_setNxt_self s n (some m) hnlen
      · rw [if_neg hxn, nextOf_setNxt_other _ _ _ _ hxn]
  · intro x
    rw [hs']
    by_cases hxnx : x = nx
    · rw [if_pos hxnx, hxnx]
      exact prevOf_setPrv_self _ nx (some m) (by rw [hl3]; exact hnxlen)
    · rw [if_neg hxnx, prevOf_setPrv_other _ _ _ _ hxnx, prevOf_setNxt]
      by_cases hxm : x = m
      · rw [if_pos hxm, hxm]
        exact prevOf_setPrv_self _ m (some n) (by rw [hl1]; exact hmlen)
      · rw [if_neg hxm, prevOf_setPrv_other _ _ _ _ hxm, prevOf_setNxt]

/-- `insertAfter` preserves the link-state invariant. -/
theorem insertAfter_link_inv (s : ListState) (m n : Nat) (s' : ListState)
    (h : insertAfter s m n = some s') (hinv : LinkInvariant s) : LinkInvariant s' := by
  obtain ⟨nx, hnx, hmn, hmnx, hnm_none, hpm_none, hpnx, hN, hP⟩ :=
    insertAfter_accessors s m n s' h hinv
  intro x
  refine ⟨?_, ?_, ?_⟩
  · rw [hN x, hP x]
    by_cases hxm : x = m
    · have hxnx : ¬x = nx := by rw [hxm]; exact hmnx
      rw [if_pos hxm, if_neg hxnx, if_pos hxm]
      simp
    · rw [if_neg hxm]
      by_cases hxn : x = n
      · rw [if_pos hxn]
        by_cases hxnx : x = nx
        · rw [if_pos hxnx]
        · rw [if_neg hxnx, if_neg hxm]
          have hps : (prevOf s x).isSome = true := by
            rw [hxn]
            exact (hinv n).1.mp (by rw [hnx]; rfl)
          simp [hps]
      · by_cases hxnx : x = nx
        · rw [if_pos hxnx, if_neg hxn]
          have hns : (nextOf s x).isSome = true := by
            rw [hxnx]
            exact (hinv nx).1.mpr (by rw [hpnx]; rfl)
          simp [hns]
        · rw [if_neg hxnx, if_neg hxn, if_neg hxm]
          exact (hinv x).1
  · intro a ha
    rw [hN x] at ha
    rw [hP a]
    by_cases hxm : x = m
    · rw [if_pos hxm] at ha
      have haa : a = nx := by
        injection ha with h1
        exact h1.symm
      rw [if_pos haa, hxm]
    · rw [if_neg hxm] at ha
      by_cases hxn : x = n
      · rw [if_pos hxn] at ha
        have haa : a = m := by
          injection ha with h1
          exact h1.symm
        have hanx : ¬a = nx := by rw [haa]; exact hmnx
        rw [if_neg hanx, if_pos haa, hxn]
      · rw [if_neg hxn] at ha
        have ham : a ≠ m := by
          intro hc
          have h2 := (hinv x).2.1 a ha
          rw [hc, hpm_none] at h2
          cases h2
        have hanx : a ≠ nx := by
          intro hc
          have h2 := (hinv x).2.1 a ha
          rw [hc, hpnx] at h2
          injection h2 with h3
          exact hxn h3.symm
        rw [if_neg hanx, if_neg ham]
        exact (hinv x).2.1 a ha
  · intro b hb
    rw [hP x] at hb
    rw [hN b]
    by_cases hxnx : x = nx
    · rw [if_pos hxnx] at hb
      have hbb : b = m := by
        injection hb with h1
        exact h1.symm
      rw [if_pos hbb, hxnx]
    · rw [if_neg hxnx] at hb
      by_cases hxm : x = m
      · rw [if_pos hxm] at hb
        have hbb : b = n := by
          injection hb with h1
          exact h1.symm
        have hbm : ¬b = m := by
          rw [hbb]
          exact fun hc => hmn hc.symm
        rw [if_neg hbm, if_pos hbb, hxm]
      · rw [if_neg hxm] at hb
        have hbm : b ≠ m := by
          intro hc
          have h2 := (hinv x).2.2 b hb
          rw [hc, hnm_none] at h2
          cases h2
        have hbn : b ≠ n := by
          intro hc
          have h2 := (hinv x).2.2 b hb
          rw [hc, hnx] at h2
          injection h2 with h3
          exact hxnx h3.symm
        rw [if_neg hbm, if_neg hbn]
        exact (hinv x).2.2 b hb

/-- Pointer-level description of a successful `removeFromList` on an
invariant state. -/
theorem removeFromList_accessors (s : ListState) (m : Nat) (s' : ListState)
    (h : removeFromList s m = some s') (hinv : LinkInvariant s) :
    ∃ nx pv, nextOf s m = some nx ∧ prevOf s m = some pv ∧
      prevOf s nx = some m ∧ nextOf s pv = some m ∧
      (∀ x, nextOf s' x =
        if x = m then none else if x = pv then some nx else nextOf s x) ∧
      (∀ x, prevOf s' x =
        if x = m then none else if x = nx then some pv else prevOf s x) := by
  obtain ⟨hmT, nx, pv, hnx, hpv, hs'⟩ := removeFromList_some_elim s m s' h
  have hmlen : m < s.nodes.length := lt_of_nextOf_some s m nx hnx
  have hpnx : prevOf s nx = some m := (hinv m).2.1 nx hnx
  have hnpv : nextOf s pv = some m := (hinv m).2.2 pv hpv
  have hnxlen : nx < s.nodes.length := lt_of_prevOf_some s nx m hpnx
  have hpvlen : pv < s.nodes.length := lt_of_nextOf_some s pv m hnpv
  have hl1 : (setNxt s pv (some nx)).nodes.length = s.nodes.length := length_setNxt s pv _
  have hl2 : (setPrv (setNxt s pv (some nx)) nx (some pv)).nodes.length =
      s.nodes.length := by
    rw [length_setPrv, hl1]
  have hl3 : (setNxt (setPrv (setNxt s pv (some nx)) nx (some pv)) m
      none).nodes.length = s.nodes.length := by
    rw [length_setNxt, hl2]
  refine ⟨nx, pv, hnx, hpv, hpnx, hnpv, ?_, ?_⟩
  · intro x
    rw [hs', nextOf_setPrv]
    by_cases hxm : x = m
    · rw [if_pos hxm, hxm]
      exact nextOf_setNxt_self _ m none (by rw [hl2]; exact hmlen)
    · rw [if_neg hxm, nextOf_setNxt_other _ _ _ _ hxm, nextOf_setPrv]
      by_cases hxpv : x = pv
      · rw [if_pos hxpv, hxpv]
        exact nextOf_setNxt_self s pv (some nx) hpvlen
      · rw [if_neg hxpv, nextOf_setNxt_other _ _ _ _ hxpv]
  · intro x
    rw [hs']
    by_cases hxm : x = m
    · rw [if_pos hxm, hxm]
      exact prevOf_setPrv_self _ m none (by rw [hl3]; exact hmlen)
    · rw [if_neg hxm, prevOf_setPrv_other _ _ _ _ hxm, prevOf_setNxt]
      by_cases hxnx : x = nx
      · rw [if_pos hxnx, hxnx]
        exact prevOf_setPrv_self _ nx (some pv) (by rw [hl1]; exact hnxlen)
      · rw [if_neg hxnx, prevOf_setPrv_other _ _ _ _ hxnx, prevOf_setNxt]

/-- `removeFromList` preserves the link-state invariant. -/
theorem removeFromList_link_inv (s : ListState) (m : Nat) (s' : ListState)
    (h : removeFromList s m = some s') (hinv : LinkInvariant s) : LinkInvariant s' := by
  obtain ⟨nx, pv, hnx, hpv, hpnx, hnpv, hN, hP⟩ := removeFromList_accessors s m s' h hinv
  intro x
  refine ⟨?_, ?_, ?_⟩
  · rw [hN x, hP x]
    by_cases hxm : x = m
    · rw [if_pos hxm, if_pos hxm]
    · rw [if_neg hxm, if_neg hxm]
      by_cases hxpv : x = pv
      · rw [if_pos hxpv]
        by_cases hxnx : x = nx
        · rw [if_pos hxnx]
          simp
        · rw [if_neg hxnx]
          have hps : (prevOf s x).isSome = true := by
            rw [hxpv]
            exact (hinv pv).1.mp (by rw [hnpv]; rfl)
          simp [hps]
      · rw [if_neg hxpv]
        by_cases hxnx : x = nx
        · rw [if_pos hxnx]
          have hns : (nextOf s x).isSome = true := by
            rw [hxnx]
            exact (hinv nx).1.mpr (by rw [hpnx]; rfl)
          simp [hns]
        · rw [if_neg hxnx]
          exact (hinv x).1
  · intro a ha
    rw [hN x] at ha
    rw [hP a]
    by_cases hxm : x = m
    · rw [if_pos hxm] at ha
      cases ha
    · rw [if_neg hxm] at ha
      by_cases hxpv : x = pv
      · rw [if_pos hxpv] at ha
        have haa : a = nx := by
          injection ha with h1
          exact h1.symm
        have ham : ¬a = m := by
          rw [haa]
          intro hc
          have h2 := hpnx
          rw [hc, hpv] at h2
          injection h2 with h3
          exact hxm (hxpv.trans h3)
        rw [if_neg ham, if_pos haa, hxpv]
      · rw [if_neg hxpv] at ha
        have ham : a ≠ m := by
          intro hc
          have h2 := (hinv x).2.1 a ha
          rw [hc, hpv] at h2
          injection h2 with h3
          exact hxpv h3.symm
        have hanx : a ≠ nx := by
          intro hc
          have h2 := (hinv x).2.1 a ha
          rw [hc, hpnx] at h2
          injection h2 with h3
          exact hxm h3.symm
        rw [if_neg ham, if_neg hanx]
        exact (hinv x).2.1 a ha
  · intro b hb
    rw [hP x] at hb
    rw [hN b]
    by_cases hxm : x = m
    · rw [if_pos hxm] at hb
      cases hb
    · rw [if_neg hxm] at hb
      by_cases hxnx : x = nx
      · rw [if_pos hxnx] at hb
        have hbb : b = pv := by
          injection hb with h1
          exact h1.symm
        have hbm : ¬b = m := by
          rw [hbb]
          intro hc
          have h2 := hnpv
          rw [hc, hnx] at h2
          injection h2 with h3
          exact hxm (hxnx.trans h3)
        rw [if_neg hbm, if_pos hbb, hxnx]
      · rw [if_neg hxnx] at hb
        have hbm : b ≠ m := by
          intro hc
          have h2 := (hinv x).2.2 b hb
          rw [hc, hnx] at h2
          injection h2 with h3
          exact hxnx h3.symm
        have hbpv : b ≠ pv := by
          intro hc
          have h2 := (hinv x).2.2 b hb
          rw [hc, hnpv] at h2
          injection h2 with h3
          exact hxm h3.symm
        rw [if_neg hbm, if_neg hbpv]
        exact (hinv x).2.2 b hb

/-- `insertBefore` preserves the link-state invariant. -/
theorem insertBefore_link_inv (s : ListState) (m n : Nat) (s' : ListState)
    (h : insertBefore s m n = some s') (hinv : LinkInvariant s) : LinkInvariant s' := by
  cases hn : inGraphList s n with
  | none => simp [insertBefore, hn] at h
  | some b =>
  cases b with
  | false => simp [insertBefore, hn] at h
  | true =>
  cases hpv : prevOf s n with
  | none => simp [insertBefore, hn, hpv] at h
  | some pv =>
    simp only [insertBefore, hn, hpv] at h
    exact insertAfter_link_inv s m pv s' h hinv

/-- `moveAfter` preserves the link-state invariant. -/
theorem moveAfter_link_inv (s : ListState) (m n : Nat) (s' : ListState)
    (h : moveAfter s m n = some s') (hinv : LinkInvariant s) : LinkInvariant s' := by
  cases hrm : removeFromList s m with
  | none => simp [moveAfter, hrm] at h
  | some s1 =>
    simp only [moveAfter, hrm] at h
    exact insertAfter_link_inv s1 m n s' h (removeFromList_link_inv s m s1 hrm hinv)

/-- `moveBefore` preserves the link-state invariant. -/
theorem moveBefore_link_inv (s : ListState) (m n : Nat) (s' : ListState)
    (h : moveBefore s m n = some s') (hinv : LinkInvariant s) : LinkInvariant s' := by
  cases hrm : removeFromList s m with
  | none => simp [moveBefore, hrm] at h
  | some s1 =>
    simp only [moveBefore, hrm] at h
    exact insertBefore_link_inv s1 m n s' h (removeFromList_link_inv s m s1 hrm hinv)

/-- The executable link check implies the link-state invariant. -/
theorem linkInvariant_of_check (s : ListState) (h : linkInvB s = true) :
    LinkInvariant s := by
  unfold linkInvB at h
  rw [List.all_eq_true] at h
  intro x
  by_cases hx : x < s.nodes.length
  · have hh := h x (List.mem_range.mpr hx)
    rw [Bool.and_eq_true] at hh
    obtain ⟨h1, h2⟩ := hh
    refine ⟨?_, ?_, ?_⟩
    · cases hnx : nextOf s x with
      | none =>
        cases hpx : prevOf s x with
        | none => simp
        | some b => rw [hnx, hpx] at h1; cases h1
      | some a =>
        cases hpx : prevOf s x with
        | none => rw [hnx, hpx] at h1; cases h1
        | some b => simp
    · intro a ha
      rw [ha] at h1
      cases hpx : prevOf s x with
      | none => rw [hpx] at h1; cases h1
      | some b =>
        rw [hpx, beq_iff_eq] at h1
        exact h1
    · intro b hb
      rw [hb, beq_iff_eq] at h2
      exact h2
  · push_neg at hx
    have hnone : s.nodes[x]? = none := List.getElem?_eq_none hx
    refine ⟨?_, ?_, ?_⟩
    · simp [nextOf, prevOf, hnone]
    · intro a ha
      simp [nextOf, hnone] at ha
    · intro b hb
      simp [prevOf, hnone] at hb

/-- C9: every node is fully detached (both links null) or fully attached
(both links non-null with `next->prev` and `prev->next` pointing back);
`insertAfter`, `insertBefore`, `moveAfter`, `moveBefore` and
`removeFromList` each preserve this invariant, and `inGraphList` asserts
fatally when `prev()` is non-null but `next()` is null. -/
theorem link_invariant_preserved :
    (∀ s m n s', insertAfter s m n = some s' → LinkInvariant s → LinkInvariant s') ∧
    (∀ s m n s', insertBefore s m n = some s' → LinkInvariant s → LinkInvariant s') ∧
    (∀ s m n s', moveAfter s m n = some s' → LinkInvariant s → LinkInvariant s') ∧
    (∀ s m n s', moveBefore s m n = some s' → LinkInvariant s → LinkInvariant s') ∧
    (∀ s m s', removeFromList s m = some s' → LinkInvariant s → LinkInvariant s') ∧
    (∀ s n l, s.nodes[n]? = some l → l.prv.isSome = true → l.nxt = none →
      inGraphList s n = none) := by
  refine ⟨?_, ?_, ?_, ?_, ?_, ?_⟩
  · intro s m n s' h hinv
    exact insertAfter_link_inv s m n s' h hinv
  · intro s m n s' h hinv
    exact insertBefore_link_inv s m n s' h hinv
  · intro s m n s' h hinv
    exact moveAfter_link_inv s m n s' h hinv
  · intro s m n s' h hinv
    exact moveBefore_link_inv s m n s' h hinv
  · intro s m s' h hinv
    exact removeFromList_link_inv s m s' h hinv
  · intro s n l hl hp hn
    have hc : l.nxt = none ∧ l.prv ≠ none := by
      refine ⟨hn, ?_⟩
      intro hc2
      rw [hc2] at hp
      cases hp
    simp [inGraphList, hl, hc]

theorem link_invariant_preserved_witness :
    LinkInvariant sW1 ∧ LinkInvariant sW1 ∧ LinkInvariant sW1 ∧
    LinkInvariant sW1 ∧ LinkInvariant sW0 ∧ inGraphList sW2 0 = none :=
  ⟨link_invariant_preserved.1 sW0 1 0 sW1 (by decide)
     (linkInvariant_of_check sW0 (by decide)),
   link_invariant_preserved.2.1 sW0 1 0 sW1 (by decide)
     (linkInvariant_of_check sW0 (by decide)),
   link_invariant_preserved.2.2.1 sW1 1 0 sW1 (by decide)
     (linkInvariant_of_check sW1 (by decide)),
   link_invariant_preserved.2.2.2.1 sW1 1 0 sW1 (by decide)
     (linkInvariant_of_check sW1 (by decide)),
   link_invariant_preserved.2.2.2.2.1 sW1 1 sW0 (by decide)
     (linkInvariant_of_check sW1 (by decide)),
   link_invariant_preserved.2.2.2.2.2 sW2 0 ⟨none, some 0⟩ (by decide) (by decide)
     (by decide)⟩

/-- C5: on an invariant state, a successful `m.insertAfter(n)` splices the
detached `m` so that `m`'s predecessor is `n`, `m`'s successor is `n`'s
former successor `nx`, `n`'s successor is `m` and `nx`'s predecessor is
`m`; `m.insertBefore(n)` symmetrically places `m` immediately before `n`;
and the assertion is a fatal failure (`none`) when `m` is already attached
or `n` is not attached. -/
theorem insertAfter_insertBefore_spec (s : ListState) (m n : Nat)
    (hinv : LinkInvariant s) :
    (∀ s' nx, insertAfter s m n = some s' → nextOf s n = some nx →
      prevOf s' m = some n ∧ nextOf s' m = some nx ∧
      nextOf s' n = some m ∧ prevOf s' nx = some m) ∧
    (∀ s', insertBefore s m n = some s' →
      nextOf s' m = some n ∧ prevOf s' n = some m ∧
      (∀ pv, prevOf s n = some pv → prevOf s' m = some pv ∧ nextOf s' pv = some m)) ∧
    (inGraphList s m = some true → insertAfter s m n = none) ∧
    (inGraphList s n = some false → insertAfter s m n = none) := by
  refine ⟨?_, ?_, ?_, ?_⟩
  · intro s' nx h hnx
    obtain ⟨nx2, hnx2, hmn, hmnx2, _, _, _, hN, hP⟩ := insertAfter_accessors s m n s' h hinv
    have hee : nx2 = nx := by
      rw [hnx2] at hnx
      injection hnx
    subst hee
    refine ⟨?_, ?_, ?_, ?_⟩
    · rw [hP m, if_neg hmnx2, if_pos rfl]
    · rw [hN m, if_pos rfl]
    · rw [hN n, if_neg (fun hc => hmn hc.symm), if_pos rfl]
    · rw [hP nx2, if_pos rfl]
  · intro s' h
    cases hn : inGraphList s n with
    | none => simp [insertBefore, hn] at h
    | some b =>
    cases b with
    | false => simp [insertBefore, hn] at h
    | true =>
    cases hpv : prevOf s n with
    | none => simp [insertBefore, hn, hpv] at h
    | some pv0 =>
    simp only [insertBefore, hn, hpv] at h
    obtain ⟨nx2, hnx2, hmpv, hmnx2, _, _, _, hN, hP⟩ :=
      insertAfter_accessors s m pv0 s' h hinv
    have hee : nx2 = n := by
      have h2 := (hinv n).2.2 pv0 hpv
      rw [hnx2] at h2
      exact Option.some_injective _ h2
    subst hee
    refine ⟨?_, ?_, ?_⟩
    · rw [hN m, if_pos rfl]
    · rw [hP nx2, if_pos rfl]
    · intro pv hpv2
      have h3 : pv0 = pv := Option.some_injective _ hpv2
      constructor
      · rw [hP m, if_neg hmnx2, if_pos rfl, h3]
      · rw [← h3, hN pv0, if_neg (fun hc => hmpv hc.symm), if_pos rfl]
  · intro hT
    cases hn2 : inGraphList s n with
    | none => simp [insertAfter, hT, hn2]
    | some b => cases b <;> simp [insertAfter, hT, hn2]
  · intro hF
    cases hm2 : inGraphList s m with
    | none => simp [insertAfter, hm2, hF]
    | some b => cases b <;> simp [insertAfter, hm2, hF]

theorem insertAfter_insertBefore_spec_witness :
    (prevOf sW1 1 = some 0 ∧ nextOf sW1 1 = some 0 ∧
      nextOf sW1 0 = some 1 ∧ prevOf sW1 0 = some 1) ∧
    (nextOf sW1 1 = some 0 ∧ prevOf sW1 0 = some 1 ∧
      (∀ pv, prevOf sW0 0 = some pv → prevOf sW1 1 = some pv ∧ nextOf sW1 pv = some 1)) ∧
    insertAfter sW1 0 1 = none ∧
    insertAfter sW0 0 1 = none :=
  ⟨(insertAfter_insertBefore_spec sW0 1 0
      (linkInvariant_of_check sW0 (by decide))).1 sW1 0 (by decide) (by decide),
   (insertAfter_insertBefore_spec sW0 1 0
      (linkInvariant_of_check sW0 (by decide))).2.1 sW1 (by decide),
   (insertAfter_insertBefore_spec sW1 0 1
      (linkInvariant_of_check sW1 (by decide))).2.2.1 (by decide),
   (insertAfter_insertBefore_spec sW0 0 1
      (linkInvariant_of_check sW0 (by decide))).2.2.2 (by decide)⟩
